import Mathlib

/-
Verification of the document ingestion pipeline of `src/server.py`
(OCR-based document classification server).

Strings are modelled as `List Char` (one entry per Unicode code point, matching
Python's string model).  Wall-clock times are modelled as rationals.  The
OCR engine, the filesystem and the network are external collaborators and are
modelled as explicit inputs (oracles / `Except` values).
-/

set_option maxHeartbeats 1000000
set_option maxRecDepth 8000

namespace Server

/-! ## Character-level utilities -/

/-- Models Python's `str.isalnum` restricted to the character ranges this
program actually meets: ASCII digits and letters, and the Cyrillic block
U+0400 - U+04FF used by the keyword lists and by user names.  Any other code
point counts as non-alphanumeric. -/
def pyIsAlnum (c : Char) : Bool :=
  (decide ('0' ≤ c) && decide (c ≤ '9')) ||
  (decide ('A' ≤ c) && decide (c ≤ 'Z')) ||
  (decide ('a' ≤ c) && decide (c ≤ 'z')) ||
  (decide ('Ѐ' ≤ c) && decide (c ≤ 'ӿ'))

/-- The character test of `sanitize_name` (server.py:271):
`c.isalnum() or c in ("_", "-")`. -/
def keepChar (c : Char) : Bool :=
  pyIsAlnum c || decide (c = '_') || decide (c = '-')

/-- Models Python's `str.lower` on one character, for the ASCII and Cyrillic
ranges used by the keyword lists (`classify_text`, server.py:373/378):
`A`-`Z` and `А`-`Я` map down by 32 code points, `Ѐ`-`Џ` (which contains `Ё`
and `І`) maps down by adding 80; everything else is unchanged. -/
def pyToLower (c : Char) : Char :=
  if decide ('A' ≤ c) && decide (c ≤ 'Z') then Char.ofNat (c.toNat + 32)
  else if decide ('А' ≤ c) && decide (c ≤ 'Я') then Char.ofNat (c.toNat + 32)
  else if decide ('Ѐ' ≤ c) && decide (c ≤ 'Џ') then Char.ofNat (c.toNat + 80)
  else c

/-- Python's `text.lower()` over a whole string. -/
def lowerList (xs : List Char) : List Char := xs.map pyToLower

/-- Python's substring test `needle in hay` (scan left to right for a
prefix match). -/
def containsSub (hay needle : List Char) : Bool :=
  match hay with
  | [] => needle.isEmpty
  | _ :: rest => needle.isPrefixOf hay || containsSub rest needle

/-- Whether the two-character sequence `__` occurs in `xs`
(Python's `"__" in safe`, server.py:274). -/
def hasDunder : List Char → Bool
  | [] => false
  | c :: rest => (decide (c = '_') && decide (rest.head? = some '_')) || hasDunder rest

/-! ## sanitize_name (server.py:265-280) -/

/-- One pass of Python's `safe.replace("__", "_")`: scan left to right,
replacing non-overlapping occurrences of `__` by `_`.  Fuel-recursive so that
it stays structurally recursive (fuel `xs.length` always suffices, since every
step consumes at least one character). -/
def rdoAux : Nat → List Char → List Char
  | _, [] => []
  | 0, xs => xs
  | fuel+1, c :: rest =>
    if c = '_' ∧ rest.head? = some '_' then '_' :: rdoAux fuel rest.tail
    else c :: rdoAux fuel rest

/-- Python's `safe.replace("__", "_")` (one call). -/
def replaceDunderOnce (xs : List Char) : List Char := rdoAux xs.length xs

/-- The loop `while "__" in safe: safe = safe.replace("__", "_")`
(server.py:274-275).  Every iteration with a `__` present strictly shrinks the
string, so `xs.length` rounds of fuel always reach the fixed point. -/
def collapseAux : Nat → List Char → List Char
  | 0, xs => xs
  | fuel+1, xs => if hasDunder xs then collapseAux fuel (replaceDunderOnce xs) else xs

/-- The underscore-collapsing loop of `sanitize_name`. -/
def collapseUnderscores (xs : List Char) : List Char := collapseAux xs.length xs

/-- Remove a trailing run of underscores (the right half of
Python's `safe.strip("_")`). -/
def dropTrailingUnderscores : List Char → List Char
  | [] => []
  | c :: rest =>
    let r := dropTrailingUnderscores rest
    if r = [] then (if c = '_' then [] else [c]) else c :: r

/-- Python's `safe.strip("_")`: drop leading and trailing underscores. -/
def stripUnderscores (xs : List Char) : List Char :=
  dropTrailingUnderscores (xs.dropWhile (fun c => decide (c = '_')))

/-- The token returned when sanitisation leaves nothing. -/
def anonToken : List Char := "anon".data

/-- `sanitize_name(name, max_length)` (server.py:265-280): empty input maps to
`"anon"`; otherwise every character that is not alphanumeric, `_` or `-`
becomes `_`; consecutive underscores are collapsed; leading/trailing
underscores are stripped; the result is truncated to `max_length`; an empty
result falls back to `"anon"`. -/
def sanitize_name (name : List Char) (max_length : Nat) : List Char :=
  if name = [] then anonToken
  else
    let safe := (name.map (fun c => if keepChar c then c else '_'))
    let safe := collapseUnderscores safe
    let safe := (stripUnderscores safe).take max_length
    if safe = [] then anonToken else safe

/-- The default `max_length = 50` of `sanitize_name`; every call site in
server.py uses this default. -/
def sanitizeDefault (name : List Char) : List Char := sanitize_name name 50

/-! ## Categories and keywords (server.py:92-156) -/

/-- The document classification categories (`DocumentCategory`,
server.py:92-101). -/
inductive DocumentCategory where
  | UDOSTOVERENIE
  | ENT
  | LGOTA
  | DIPLOM
  | PRIVIVKA
  | MED_SPRAVKA
  | UNCLASSIFIED
deriving DecidableEq, Repr

/-- The `.value` string of each category member. -/
def categoryValue : DocumentCategory → List Char
  | .UDOSTOVERENIE => "Udostoverenie".data
  | .ENT => "ENT".data
  | .LGOTA => "Lgota".data
  | .DIPLOM => "Diplom".data
  | .PRIVIVKA => "Privivka".data
  | .MED_SPRAVKA => "MedSpravka".data
  | .UNCLASSIFIED => "Unclassified".data

/-- Keyword tuple `CategoryKeywords.UDOSTOVERENIE` (server.py:108). -/
def KW_UDOSTOVERENIE : List (List Char) := ["удостоверение".data, "ID".data]

/-- Keyword tuple `CategoryKeywords.ENT` (server.py:109-115). -/
def KW_ENT : List (List Char) :=
  ["сертификат".data, "ТЕСТИРОВАНИЯ".data, "ТЕСТІЛЕУ".data, "ТЕСТИРУЕМОГО".data,
   "Набранные баллы".data]

/-- Keyword tuple `CategoryKeywords.LGOTA` (server.py:116). -/
def KW_LGOTA : List (List Char) := ["льгота".data, "инвалид".data, "многодетная".data]

/-- Keyword tuple `CategoryKeywords.DIPLOM` (server.py:117). -/
def KW_DIPLOM : List (List Char) :=
  ["диплом".data, "аттестат".data, "бакалавр".data, "магистр".data]

/-- Keyword tuple `CategoryKeywords.PRIVIVKA` (server.py:118-123). -/
def KW_PRIVIVKA : List (List Char) :=
  ["прививка".data, "прививочный паспорт".data, "вакцинирование".data, "инфекция".data]

/-- Keyword tuple `CategoryKeywords.MED_SPRAVKA` (server.py:124-144). -/
def KW_MED_SPRAVKA : List (List Char) :=
  ["медицинская справка".data, "справка".data, "медицинский".data, "туберкулез".data,
   "полиомелит".data, "гепатит".data, "вич".data, "спид".data, "карта ребенка".data,
   "Дегельминтизация".data, "дегельминтизация".data, "клинический анализ крови".data,
   "анализ крови".data, "анализ мочи".data, "моча".data, "кровь".data,
   "флюорография".data, "флюорографическое обследование".data, "флюорография легких".data]

/-- The keyword tuple owned by each category (empty for the sentinel). -/
def keywordsFor : DocumentCategory → List (List Char)
  | .UDOSTOVERENIE => KW_UDOSTOVERENIE
  | .ENT => KW_ENT
  | .LGOTA => KW_LGOTA
  | .DIPLOM => KW_DIPLOM
  | .PRIVIVKA => KW_PRIVIVKA
  | .MED_SPRAVKA => KW_MED_SPRAVKA
  | .UNCLASSIFIED => []

/-- The `CATEGORY_KEYWORDS` dict (server.py:149-156) in its insertion
(iteration) order. -/
def CATEGORY_KEYWORDS : List (DocumentCategory × List (List Char)) :=
  [(.UDOSTOVERENIE, KW_UDOSTOVERENIE), (.ENT, KW_ENT), (.LGOTA, KW_LGOTA),
   (.DIPLOM, KW_DIPLOM), (.PRIVIVKA, KW_PRIVIVKA), (.MED_SPRAVKA, KW_MED_SPRAVKA)]

/-- Position of a category in the fixed enumeration order (the sentinel comes
last). -/
def enumIndex : DocumentCategory → Nat
  | .UDOSTOVERENIE => 0
  | .ENT => 1
  | .LGOTA => 2
  | .DIPLOM => 3
  | .PRIVIVKA => 4
  | .MED_SPRAVKA => 5
  | .UNCLASSIFIED => 6

/-! ## classify_text (server.py:367-383) -/

/-- `sum(1 for keyword in keywords if keyword.lower() in text_lower)`
(server.py:378). -/
def countHits (textLower : List Char) (kws : List (List Char)) : Nat :=
  (kws.filter (fun k => containsSub textLower (lowerList k))).length

/-- One step of the best-category scan of `classify_text` (server.py:377-381):
a candidate replaces the current best only on a strict improvement. -/
def stepFn (tl : List Char) (acc : DocumentCategory × Nat)
    (p : DocumentCategory × List (List Char)) : DocumentCategory × Nat :=
  if acc.2 < countHits tl p.2 then (p.1, countHits tl p.2) else acc

/-- `classify_text(text)` (server.py:367-383): empty text is Unclassified;
otherwise lower-case the text once, count case-insensitive keyword substring
hits per category, and keep the first category in iteration order that
strictly improves on the running maximum (which starts at 0). -/
def classify_text (text : List Char) : DocumentCategory :=
  if text = [] then .UNCLASSIFIED
  else (CATEGORY_KEYWORDS.foldl (stepFn (lowerList text)) (.UNCLASSIFIED, 0)).1

/-- The keyword-hit count of a category on a given text (0 for the
sentinel). -/
def categoryHits (text : List Char) (c : DocumentCategory) : Nat :=
  countHits (lowerList text) (keywordsFor c)

/-! ## Filename codec -/

/-- Split a character list at the LAST occurrence of `ch`: returns
`some (before, after)` with `xs = before ++ ch :: after` and `ch ∉ after`,
or `none` when `ch` does not occur.  Backs Python's `rfind`/`rsplit`. -/
def splitLastChar (ch : Char) : List Char → Option (List Char × List Char)
  | [] => none
  | c :: rest =>
    match splitLastChar ch rest with
    | some (b, a) => some (c :: b, a)
    | none => if c = ch then some ([], rest) else none

/-- Python's `Path(name).stem` for a plain file name (no path separators):
if the last `.` sits strictly inside the name (not first and not last
character) the part before it, else the whole name. -/
def pathStem (name : List Char) : List Char :=
  match splitLastChar '.' name with
  | none => name
  | some (before, after) => if before ≠ [] ∧ after ≠ [] then before else name

/-- Python's `Path(name).suffix` for a plain file name: the last `.` plus what
follows it, when that dot sits strictly inside the name; else empty. -/
def pathSuffix (name : List Char) : List Char :=
  match splitLastChar '.' name with
  | none => []
  | some (before, after) => if before ≠ [] ∧ after ≠ [] then '.' :: after else []

/-- `Path(original_name).suffix.lower()` (server.py:510). -/
def extLower (name : List Char) : List Char := (pathSuffix name).map pyToLower

/-- Python's `stem.rsplit("_", 2)`: split off at most two fields from the
right at underscores. -/
def rsplit2Underscore (xs : List Char) : List (List Char) :=
  match splitLastChar '_' xs with
  | none => [xs]
  | some (l1, last) =>
    match splitLastChar '_' l1 with
    | none => [l1, last]
    | some (l2, mid) => [l2, mid, last]

/-- Scan for Python's `filename.split("__")`: returns the first field and the
remaining fields.  Fuel-recursive (each step consumes at least one character,
so fuel `xs.length` suffices). -/
def sdcAux : Nat → List Char → List Char × List (List Char)
  | _, [] => ([], [])
  | 0, xs => (xs, [])
  | fuel+1, c :: rest =>
    if c = '_' ∧ rest.head? = some '_' then
      let p := sdcAux fuel rest.tail
      ([], p.1 :: p.2)
    else
      let p := sdcAux fuel rest
      (c :: p.1, p.2)

/-- Python's `filename.split("__")` (server.py:392): non-overlapping,
left-to-right. -/
def splitDunder (xs : List Char) : List (List Char) :=
  ((sdcAux xs.length xs).1) :: (sdcAux xs.length xs).2

/-- Python's `"__".join(parts)` (server.py:401). -/
def joinDunder : List (List Char) → List Char
  | [] => []
  | x :: rest => if rest.isEmpty then x else x ++ '_' :: '_' :: joinDunder rest

/-- The metadata dict returned by `parse_stored_filename`
(server.py:417-422). -/
structure ParsedFile where
  id : List Char
  category : List Char
  name : List Char
  original : List Char
deriving DecidableEq, Repr

/-- `parse_stored_filename(filename)` (server.py:386-422): split on `__` into
at least three segments (else `None`); first segment is the category, second
the combined name; re-join the rest, strip the extension, and split off the
last two underscore-delimited tokens, taking a 36-character token in the
second-to-last position as the id. -/
def parse_stored_filename (filename : List Char) : Option ParsedFile :=
  let parts := splitDunder filename
  if parts.length < 3 then none
  else
    let category := parts.headD []
    let nm := (parts.drop 1).headD []
    let remainder := joinDunder (parts.drop 2)
    let stem := pathStem remainder
    match rsplit2Underscore stem with
    | [original, mu, _] => some ⟨if mu.length = 36 then mu else [], category, nm, original⟩
    | [original, mu] => some ⟨if mu.length = 36 then mu else [], category, nm, original⟩
    | _ => some ⟨[], category, nm, stem⟩

/-- Decimal digits of a natural number, as characters.  Fuel-based mirror of
Python's string formatting of the collision index (`f"..._{idx}"`). -/
def digitChar (d : Nat) : Char := Char.ofNat (48 + d % 10)

/-- Helper for `natDigits`; fuel `n+1` always suffices since the argument
shrinks by a factor of ten per step. -/
def natDigitsAux : Nat → Nat → List Char
  | 0, _ => []
  | fuel+1, n => if n < 10 then [digitChar n] else natDigitsAux fuel (n / 10) ++ [digitChar (n % 10)]

/-- Decimal representation of a natural number. -/
def natDigits (n : Nat) : List Char := natDigitsAux (n + 1) n

/-- `ALLOWED_EXTENSIONS` (server.py:158). -/
def ALLOWED_EXTENSIONS : List (List Char) :=
  [".pdf".data, ".jpg".data, ".jpeg".data, ".png".data]

/-- The `base_name` f-string of `process_single_file` (server.py:535-539):
`{category.value}__{sanitize(name)}_{sanitize(lastname)}__{sanitize(stem)}`. -/
def storageBaseOfStem (category : DocumentCategory) (name lastname stem : List Char) :
    List Char :=
  categoryValue category ++ '_' :: '_' :: sanitizeDefault name ++ '_' :: sanitizeDefault lastname
    ++ '_' :: '_' :: sanitizeDefault stem

/-- A probe candidate `f"{base_name}_{file_id}_{idx}{ext}"` (server.py:544). -/
def candidateName (base uuid : List Char) (idx : Nat) (ext : List Char) : List Char :=
  base ++ '_' :: uuid ++ '_' :: natDigits idx ++ ext

/-- The full stored-filename encoder: the name `process_single_file` writes for
a classified file, given the sanitised inputs' raw values, the generated id,
the collision index and the (validated) extension. -/
def encode_stored_filename (category : DocumentCategory) (name lastname origStem uuid : List Char)
    (idx : Nat) (ext : List Char) : List Char :=
  candidateName (storageBaseOfStem category name lastname origStem) uuid idx ext

/-! ## RateLimiter (server.py:210-246) -/

/-- Rate limiter configuration: `rate_per_minute` and `window_seconds`
(server.py:213-216). -/
structure RateLimiter where
  rate : Nat
  window : ℚ

/-- The eviction loop of `is_limited` (server.py:226-227): pop timestamps from
the front while they are strictly older than `now - window`. -/
def dropOld (now window : ℚ) (reqs : List ℚ) : List ℚ :=
  reqs.dropWhile (fun t => decide (t < now - window))

/-- `RateLimiter.is_limited` (server.py:219-233) as a state transition: returns
the verdict and the new timestamp list for the identifier. -/
def is_limited (rl : RateLimiter) (now : ℚ) (reqs : List ℚ) : Bool × List ℚ :=
  let kept := dropOld now rl.window reqs
  if rl.rate ≤ kept.length then (true, kept) else (false, kept ++ [now])

/-- Run a sequence of checks (one `is_limited` call per time value) against an
identifier's state, collecting the verdicts and the final state. -/
def checksFrom (rl : RateLimiter) (reqs : List ℚ) : List ℚ → List Bool × List ℚ
  | [] => ([], reqs)
  | t :: ts =>
    let r := is_limited rl t reqs
    let rest := checksFrom rl r.2 ts
    (r.1 :: rest.1, rest.2)

/-! ## Text extraction (server.py:283-364) -/

/-- Default of `Settings.max_text_extract_length` (server.py:63). -/
def defaultMaxTextLen : Nat := 5000

/-- `extract_text_from_image` (server.py:298-313): the OCR engine either
produces text, which is truncated to `max_text_extract_length`, or fails
(TesseractError, timeout, anything else), which degrades to the empty
string. -/
def extract_text_from_image (maxLen : Nat) (ocr : Except Unit (List Char)) : List Char :=
  match ocr with
  | .ok t => t.take maxLen
  | .error _ => []

/-- The page loop of `_extract_text_from_pdf` (server.py:339-346): accumulate
page texts in order, stopping after the page that brings the running total
length to `max_text_extract_length` or beyond. -/
def accumPages (maxLen : Nat) : Nat → List (List Char) → List (List Char)
  | _, [] => []
  | total, t :: rest =>
    if maxLen ≤ total + t.length then [t]
    else t :: accumPages maxLen (total + t.length) rest

/-- Join with newlines: Python's `"\n".join(texts)` (server.py:348). -/
def joinNewline : List (List Char) → List Char
  | [] => []
  | x :: rest => if rest.isEmpty then x else x ++ '\n' :: joinNewline rest

/-- `_extract_text_from_pdf` (server.py:326-351): rasterisation either fails
(whole call degrades to the empty string) or yields per-page OCR outcomes;
page texts accumulate with the early stop, and the joined result is truncated
to `max_text_extract_length`. -/
def extract_text_from_pdf (maxLen : Nat)
    (conv : Except Unit (List (Except Unit (List Char)))) : List Char :=
  match conv with
  | .error _ => []
  | .ok pages =>
    (joinNewline (accumPages maxLen 0 (pages.map (extract_text_from_image maxLen)))).take maxLen

/-- The input of `extract_text` as seen through the external collaborators:
a PDF whose rasterisation may fail and whose pages' OCR calls may each fail,
or an image whose decoding may fail and whose OCR call may fail. -/
inductive FileInput where
  | pdf (conv : Except Unit (List (Except Unit (List Char))))
  | image (decoded : Except Unit (Except Unit (List Char)))

/-- `extract_text` (server.py:315-323) together with
`_extract_text_from_image_bytes` (server.py:354-364): total — every engine,
decoding or timeout failure degrades to text, never an exception. -/
def extract_text (maxLen : Nat) : FileInput → List Char
  | .pdf conv => extract_text_from_pdf maxLen conv
  | .image (.error _) => []
  | .image (.ok ocr) => extract_text_from_image maxLen ocr

/-! ## Storage and per-file processing (server.py:502-573) -/

/-- The collision-probe loop of `process_single_file` (server.py:542-555):
probe `cand idx` for `idx = 1, 2, ...`; the first name not on disk is used;
when the index would pass 1000 the loop aborts without storing.  Fuel 1000 is
exact: the loop body runs at most 1000 times. -/
def probeAux (onDisk : List Char → Bool) (cand : Nat → List Char) : Nat → Nat → Option (List Char)
  | 0, _ => none
  | fuel+1, idx =>
    if onDisk (cand idx) = false then some (cand idx)
    else if 1000 < idx + 1 then none
    else probeAux onDisk cand fuel (idx + 1)

/-- Find a free stored filename for `base`/`uuid`/`ext`, starting at collision
index 1 and giving up after 1000 colliding probes. -/
def find_unique_name (onDisk : List Char → Bool) (base uuid ext : List Char) :
    Option (List Char) :=
  probeAux onDisk (fun idx => candidateName base uuid idx ext) 1000 1

/-- The response record `ProcessedFile` (server.py:170-179). -/
structure ProcessedFile where
  id : List Char
  original_name : List Char
  category : List Char
  filename : List Char
  size : Nat
  modified : Int
  status : String
deriving DecidableEq, Repr

/-- `process_single_file` (server.py:502-573).  `step` is the fallible prefix
(reading the staged file and running the executor): when it raises, the
surrounding `except` swallows the exception and the function returns `None`.
On success the text is classified; an unclassified file is not stored; a
classified file is stored under the first free candidate name, and collision
exhaustion leaves the record with an empty filename and the initial
`"unclassified"` status. -/
def process_single_file (onDisk : List Char → Bool) (uuid : List Char) (now : Int)
    (name lastname original_name : List Char) (step : Except Unit (List Nat × List Char)) :
    Option ProcessedFile :=
  match step with
  | .error _ => none
  | .ok (file_bytes, text) =>
    let category := classify_text text
    let size := file_bytes.length
    if category = .UNCLASSIFIED then
      some ⟨uuid, original_name, categoryValue category, [], size, now, "unclassified"⟩
    else
      let base := storageBaseOfStem category name lastname (pathStem original_name)
      match find_unique_name onDisk base uuid (extLower original_name) with
      | some c => some ⟨uuid, original_name, categoryValue category, c, size, now, "saved"⟩
      | none => some ⟨uuid, original_name, categoryValue category, [], size, now, "unclassified"⟩

/-- The per-file inputs of one unit of work inside an upload batch. -/
structure UnitInput where
  uuid : List Char
  now : Int
  original_name : List Char
  step : Except Unit (List Nat × List Char)

/-- The processing core of `upload_files` (server.py:713-730): run every unit,
then keep exactly the successful `ProcessedFile` results (`None`s — caught
exceptions — are filtered out, and the batch never aborts). -/
def process_batch (onDisk : List Char → Bool) (name lastname : List Char)
    (units : List UnitInput) : List ProcessedFile :=
  (units.map (fun u =>
    process_single_file onDisk u.uuid u.now name lastname u.original_name u.step)).filterMap id

/-! ## Retention sweep (server.py:576-600) -/

instance {ε α : Type} [DecidableEq ε] [DecidableEq α] : DecidableEq (Except ε α) := fun a b =>
  match a, b with
  | .ok x, .ok y => decidable_of_iff (x = y) (by simp)
  | .error x, .error y => decidable_of_iff (x = y) (by simp)
  | .ok _, .error _ => .isFalse (by simp)
  | .error _, .ok _ => .isFalse (by simp)

/-- A directory entry as `cleanup_old_files` sees it: a name, whether it is a
regular file, and the result of `stat()` — a modification time, or an
`OSError` (which also stands for a failing `unlink`). -/
structure FsEntry where
  name : List Char
  isFile : Bool
  stat : Except Unit ℚ
deriving DecidableEq, Repr

/-- `cleanup_old_files` (server.py:576-600) over a directory listing: returns
the entries still present after the sweep and the number of removed files.
Non-files are skipped; a file is removed when its mtime is strictly below the
cutoff; an `OSError` on one file is logged and the sweep continues. -/
def cleanup_old_files (cutoff : ℚ) : List FsEntry → List FsEntry × Nat
  | [] => ([], 0)
  | e :: rest =>
    let r := cleanup_old_files cutoff rest
    if e.isFile then
      match e.stat with
      | .ok m => if m < cutoff then (r.1, r.2 + 1) else (e :: r.1, r.2)
      | .error _ => (e :: r.1, r.2)
    else (e :: r.1, r.2)

/-- The cutoff `time.time() - max_file_age_days * 24 * 3600`
(server.py:581). -/
def cleanupCutoff (now : ℚ) (max_file_age_days : Nat) : ℚ :=
  now - (max_file_age_days : ℚ) * 24 * 3600

/-- Total character count of a list of page texts. -/
def sumLens (ls : List (List Char)) : Nat := (ls.map List.length).sum

/-- Whether one sweep pass removes a directory entry: a regular file whose
stat succeeded with a modification time strictly below the cutoff. -/
def sweepRemoves (cutoff : ℚ) (e : FsEntry) : Bool :=
  e.isFile && (match e.stat with
    | .ok m => decide (m < cutoff)
    | .error _ => false)

/-! ## Lemmas: sanitize_name output shape -/

theorem mem_rdoAux (fuel : Nat) (xs : List Char) (c : Char) (h : c ∈ rdoAux fuel xs) :
    c ∈ xs := by
  induction fuel generalizing xs with
  | zero => cases xs <;> simpa [rdoAux] using h
  | succ f ih =>
    cases xs with
    | nil => simpa [rdoAux] using h
    | cons a rest =>
      rw [rdoAux] at h
      split at h
      · next hcond =>
        cases rest with
        | nil => simp at hcond
        | cons r0 rs =>
          rcases List.mem_cons.1 h with hc | hc
          · subst hc
            rw [hcond.1]
            exact List.mem_cons_self _ _
          · exact List.mem_cons_of_mem a (List.mem_cons_of_mem r0 (ih _ hc))
      · rcases List.mem_cons.1 h with hc | hc
        · exact hc ▸ List.mem_cons_self _ _
        · exact List.mem_cons_of_mem a (ih _ hc)

theorem rdoAux_length_le (fuel : Nat) (xs : List Char) :
    (rdoAux fuel xs).length ≤ xs.length := by
  induction fuel generalizing xs with
  | zero => cases xs <;> simp [rdoAux]
  | succ f ih =>
    cases xs with
    | nil => simp [rdoAux]
    | cons a rest =>
      rw [rdoAux]
      split
      · next hcond =>
        cases rest with
        | nil => simp at hcond
        | cons r0 rs =>
          have := ih rs
          simp only [List.tail_cons, List.length_cons]
          omega
      · have := ih rest
        simp only [List.length_cons]
        omega

theorem rdoAux_length_lt (fuel : Nat) (xs : List Char) (hf : xs.length ≤ fuel)
    (hd : hasDunder xs = true) : (rdoAux fuel xs).length < xs.length := by
  induction fuel generalizing xs with
  | zero =>
    cases xs with
    | nil => simp [hasDunder] at hd
    | cons a rest => simp at hf
  | succ f ih =>
    cases xs with
    | nil => simp [hasDunder] at hd
    | cons a rest =>
      rw [rdoAux]
      split
      · next hcond =>
        cases rest with
        | nil => simp at hcond
        | cons r0 rs =>
          have := rdoAux_length_le f rs
          simp only [List.tail_cons, List.length_cons]
          omega
      · next hcond =>
        rw [hasDunder] at hd
        simp only [Bool.or_eq_true, Bool.and_eq_true, decide_eq_true_eq] at hd
        rcases hd with ⟨h1, h2⟩ | hr
        · exact absurd ⟨h1, h2⟩ hcond
        · have hlen : rest.length ≤ f := by
            simp only [List.length_cons] at hf
            omega
          have := ih rest hlen hr
          simp only [List.length_cons]
          omega

theorem mem_replaceDunderOnce (xs : List Char) (c : Char) (h : c ∈ replaceDunderOnce xs) :
    c ∈ xs := mem_rdoAux _ _ _ h

theorem replaceDunderOnce_length_lt (xs : List Char) (hd : hasDunder xs = true) :
    (replaceDunderOnce xs).length < xs.length := rdoAux_length_lt _ _ le_rfl hd

theorem mem_collapseAux (fuel : Nat) (xs : List Char) (c : Char) (h : c ∈ collapseAux fuel xs) :
    c ∈ xs := by
  induction fuel generalizing xs with
  | zero => simpa [collapseAux] using h
  | succ f ih =>
    rw [collapseAux] at h
    split at h
    · exact mem_replaceDunderOnce _ _ (ih _ h)
    · exact h

theorem collapseAux_noDunder (fuel : Nat) (xs : List Char) (hf : xs.length ≤ fuel) :
    hasDunder (collapseAux fuel xs) = false := by
  induction fuel generalizing xs with
  | zero =>
    have : xs = [] := List.length_eq_zero.mp (Nat.le_zero.mp hf)
    subst this
    simp [collapseAux, hasDunder]
  | succ f ih =>
    rw [collapseAux]
    split
    · next hd =>
      exact ih _ (by have := replaceDunderOnce_length_lt xs hd; omega)
    · next hd => exact Bool.of_not_eq_true hd

theorem collapseAux_of_noDunder (fuel : Nat) (xs : List Char) (hd : hasDunder xs = false) :
    collapseAux fuel xs = xs := by
  cases fuel with
  | zero => rfl
  | succ f => rw [collapseAux, hd]; simp

theorem collapseUnderscores_noDunder (xs : List Char) :
    hasDunder (collapseUnderscores xs) = false := collapseAux_noDunder _ _ le_rfl

theorem mem_collapseUnderscores (xs : List Char) (c : Char) (h : c ∈ collapseUnderscores xs) :
    c ∈ xs := mem_collapseAux _ _ _ h

theorem hasDunder_append_left (u v : List Char) (h : hasDunder (u ++ v) = false) :
    hasDunder u = false := by
  induction u with
  | nil => rfl
  | cons a u ih =>
    rw [List.cons_append, hasDunder] at h
    rw [hasDunder]
    simp only [Bool.or_eq_false_iff] at h ⊢
    refine ⟨?_, ih h.2⟩
    cases u with
    | nil => simp
    | cons b u' => simpa using h.1

theorem hasDunder_append_right (u v : List Char) (h : hasDunder (u ++ v) = false) :
    hasDunder v = false := by
  induction u with
  | nil => exact h
  | cons a u ih =>
    rw [List.cons_append, hasDunder] at h
    simp only [Bool.or_eq_false_iff] at h
    exact ih h.2

theorem hasDunder_append_false (u v : List Char) (hu : hasDunder u = false)
    (hv : hasDunder v = false)
    (hj : ¬(u.getLast? = some '_' ∧ v.head? = some '_')) :
    hasDunder (u ++ v) = false := by
  induction u with
  | nil => exact hv
  | cons a u ih =>
    cases u with
    | nil =>
      rw [List.cons_append, List.nil_append, hasDunder]
      simp only [Bool.or_eq_false_iff]
      refine ⟨?_, hv⟩
      simp only [List.getLast?_singleton] at hj
      by_cases ha : a = '_'
      · subst ha
        cases hvh : v.head? with
        | none => simp [hvh]
        | some b =>
          have : b ≠ '_' := fun hb => hj ⟨rfl, by rw [hvh, hb]⟩
          simp [hvh, this]
      · simp [ha]
    | cons b u' =>
      rw [List.cons_append, hasDunder]
      simp only [Bool.or_eq_false_iff]
      rw [hasDunder] at hu
      simp only [Bool.or_eq_false_iff] at hu
      refine ⟨?_, ih hu.2 ?_⟩
      · simpa using hu.1
      · intro hc
        exact hj ⟨by rw [List.getLast?_cons_cons]; exact hc.1, hc.2⟩

theorem noDunder_of_not_mem (xs : List Char) (h : '_' ∉ xs) : hasDunder xs = false := by
  induction xs with
  | nil => rfl
  | cons a rest ih =>
    rw [hasDunder]
    simp only [Bool.or_eq_false_iff]
    constructor
    · have : a ≠ '_' := fun hc => h (hc ▸ List.mem_cons_self _ _)
      simp [this]
    · exact ih fun hc => h (List.mem_cons_of_mem _ hc)

theorem hasDunder_take (xs : List Char) (n : Nat) (h : hasDunder xs = false) :
    hasDunder (xs.take n) = false :=
  hasDunder_append_left _ _ (by rw [List.take_append_drop]; exact h)

theorem hasDunder_dropWhile (p : Char → Bool) (xs : List Char) (h : hasDunder xs = false) :
    hasDunder (xs.dropWhile p) = false :=
  hasDunder_append_right _ _ (by rw [List.takeWhile_append_dropWhile]; exact h)

theorem dtu_spec (xs : List Char) :
    ∃ t, xs = dropTrailingUnderscores xs ++ t ∧ ∀ c ∈ t, c = '_' := by
  induction xs with
  | nil => exact ⟨[], rfl, by simp⟩
  | cons a rest ih =>
    obtain ⟨t, ht, hall⟩ := ih
    by_cases hr : dropTrailingUnderscores rest = []
    · have htt : rest = t := by simpa [hr] using ht
      subst htt
      by_cases ha : a = '_'
      · refine ⟨a :: rest, ?_, fun c hc => ?_⟩
        · simp only [dropTrailingUnderscores]
          rw [hr]
          simp [ha]
        · rcases List.mem_cons.1 hc with hc | hc
          · exact hc.trans ha
          · exact hall c hc
      · refine ⟨rest, ?_, hall⟩
        simp only [dropTrailingUnderscores]
        rw [hr]
        simp [ha]
    · refine ⟨t, ?_, hall⟩
      rw [dropTrailingUnderscores]
      simp only [if_neg hr]
      simp only [List.cons_append, List.cons.injEq, true_and]
      exact ht

theorem mem_dtu (xs : List Char) (c : Char) (h : c ∈ dropTrailingUnderscores xs) : c ∈ xs := by
  obtain ⟨t, ht, _⟩ := dtu_spec xs
  rw [ht]
  exact List.mem_append_left _ h

theorem hasDunder_dtu (xs : List Char) (h : hasDunder xs = false) :
    hasDunder (dropTrailingUnderscores xs) = false := by
  obtain ⟨t, ht, _⟩ := dtu_spec xs
  exact hasDunder_append_left _ _ (ht ▸ h)

theorem dtu_getLast_ne (xs : List Char) (c : Char)
    (h : (dropTrailingUnderscores xs).getLast? = some c) : c ≠ '_' := by
  induction xs with
  | nil => simp [dropTrailingUnderscores] at h
  | cons a rest ih =>
    rw [dropTrailingUnderscores] at h
    by_cases hr : dropTrailingUnderscores rest = []
    · rw [hr] at h
      simp only [if_pos rfl] at h
      by_cases ha : a = '_'
      · simp [ha] at h
      · simp [ha] at h
        exact h ▸ ha
    · rw [if_neg hr] at h
      cases hd : dropTrailingUnderscores rest with
      | nil => exact absurd hd hr
      | cons d ds =>
        rw [hd, List.getLast?_cons_cons] at h
        exact ih (hd ▸ h)

theorem dtu_of_getLast (xs : List Char) (h : xs.getLast? ≠ some '_') :
    dropTrailingUnderscores xs = xs := by
  induction xs with
  | nil => rfl
  | cons a rest ih =>
    cases rest with
    | nil =>
      have ha : a ≠ '_' := by
        intro hc
        exact h (by rw [hc]; rfl)
      simp [dropTrailingUnderscores, ha]
    | cons b rs =>
      rw [List.getLast?_cons_cons] at h
      have hr := ih h
      rw [dropTrailingUnderscores, hr]
      simp

theorem dtu_head (xs : List Char) (hne : dropTrailingUnderscores xs ≠ []) :
    (dropTrailingUnderscores xs).head? = xs.head? := by
  obtain ⟨t, ht, _⟩ := dtu_spec xs
  cases hd : dropTrailingUnderscores xs with
  | nil => exact absurd hd hne
  | cons d ds =>
    rw [ht, hd]
    simp

theorem dropWhile_head_not (p : Char → Bool) (xs : List Char) (c : Char) (t : List Char)
    (h : xs.dropWhile p = c :: t) : p c = false := by
  induction xs with
  | nil => simp at h
  | cons a rest ih =>
    rw [List.dropWhile_cons] at h
    split at h
    · exact ih h
    · next hp =>
      cases h
      exact Bool.of_not_eq_true hp

theorem head?_take_eq (xs : List Char) (n : Nat) (c : Char) (h : (xs.take n).head? = some c) :
    xs.head? = some c := by
  cases xs <;> cases n <;> simp_all

theorem mem_stripUnderscores (xs : List Char) (c : Char) (h : c ∈ stripUnderscores xs) :
    c ∈ xs := by
  have h1 := mem_dtu _ _ h
  exact (List.dropWhile_sublist _).mem h1

/-- Every character of a `sanitize_name` result is alphanumeric, `_` or
`-`. -/
theorem sanitize_name_mem_keep (x : List Char) (L : Nat) (c : Char)
    (h : c ∈ sanitize_name x L) : keepChar c = true := by
  have hanon : ∀ d ∈ anonToken, keepChar d = true := by decide
  simp only [sanitize_name] at h
  split at h
  · exact hanon c h
  · split at h
    · exact hanon c h
    · have h1 : c ∈ stripUnderscores (collapseUnderscores
          (x.map (fun c => if keepChar c then c else '_'))) := (List.take_subset _ _) h
      have h2 := mem_stripUnderscores _ _ h1
      have h3 := mem_collapseUnderscores _ _ h2
      obtain ⟨a, _, ha⟩ := List.mem_map.1 h3
      by_cases hk : keepChar a = true
      · rw [if_pos hk] at ha
        exact ha ▸ hk
      · rw [if_neg hk] at ha
        subst ha
        decide

/-- A `sanitize_name` result never contains two consecutive underscores. -/
theorem sanitize_name_noDunder (x : List Char) (L : Nat) :
    hasDunder (sanitize_name x L) = false := by
  simp only [sanitize_name]
  split
  · decide
  · split
    · decide
    · exact hasDunder_take _ _ (hasDunder_dtu _ (hasDunder_dropWhile _ _
        (collapseUnderscores_noDunder _)))

/-- A `sanitize_name` result is never empty. -/
theorem sanitize_name_ne_nil (x : List Char) (L : Nat) : sanitize_name x L ≠ [] := by
  simp only [sanitize_name]
  split
  · decide
  · split
    · decide
    · next h => exact h

/-- A `sanitize_name` result never starts with an underscore. -/
theorem sanitize_name_head_ne (x : List Char) (L : Nat) :
    (sanitize_name x L).head? ≠ some '_' := by
  simp only [sanitize_name]
  split
  · decide
  · split
    · decide
    · next hne =>
      intro hcontra
      have hs := head?_take_eq _ _ _ hcontra
      have hdne : dropTrailingUnderscores ((collapseUnderscores
          (x.map (fun c => if keepChar c then c else '_'))).dropWhile
            (fun c => decide (c = '_'))) ≠ [] := by
        intro hnil
        rw [stripUnderscores] at hs
        rw [hnil] at hs
        simp at hs
      rw [stripUnderscores] at hs
      rw [dtu_head _ hdne] at hs
      cases hdw : (collapseUnderscores
          (x.map (fun c => if keepChar c then c else '_'))).dropWhile
            (fun c => decide (c = '_')) with
      | nil => rw [hdw] at hs; simp at hs
      | cons d ds =>
        rw [hdw] at hs
        simp only [List.head?_cons, Option.some.injEq] at hs
        have := dropWhile_head_not _ _ _ _ hdw
        rw [hs] at this
        simp at this

/-- Length bound of a `sanitize_name` result: at most `max_length`, except for
the `"anon"` fallback (4 characters). -/
theorem sanitize_name_length_le (x : List Char) (L : Nat) :
    (sanitize_name x L).length ≤ max L 4 := by
  simp only [sanitize_name]
  split
  · simp [anonToken]
  · split
    · simp [anonToken]
    · exact le_trans (List.length_take_le _ _) (le_max_left _ _)

/-- `sanitize_name` leaves a string unchanged when it is already in sanitized
shape and within the length bound. -/
theorem sanitize_fixpoint (xs : List Char) (L : Nat) (h1 : xs ≠ [])
    (h2 : ∀ c ∈ xs, keepChar c = true) (h3 : hasDunder xs = false)
    (h4 : xs.head? ≠ some '_') (h5 : xs.getLast? ≠ some '_') (h6 : xs.length ≤ L) :
    sanitize_name xs L = xs := by
  simp only [sanitize_name, if_neg h1]
  have hm : xs.map (fun c => if keepChar c then c else '_') = xs := by
    have : ∀ c ∈ xs, (if keepChar c then c else '_') = c := fun c hc => by simp [h2 c hc]
    calc xs.map (fun c => if keepChar c then c else '_')
        = xs.map id := List.map_congr_left this
      _ = xs := List.map_id xs
  rw [hm]
  rw [collapseUnderscores, collapseAux_of_noDunder _ _ h3]
  have hdw : xs.dropWhile (fun c => decide (c = '_')) = xs := by
    cases xs with
    | nil => rfl
    | cons a rest =>
      have ha : a ≠ '_' := by
        intro hc
        exact h4 (by rw [hc]; rfl)
      rw [List.dropWhile_cons]
      simp [ha]
  rw [stripUnderscores, hdw, dtu_of_getLast _ h5, List.take_of_length_le h6, if_neg h1]

/-! ## Claim C10 -/

/-- C10: for every input string and length bound, the result of
`sanitize_name` contains no two consecutive underscores and every one of its
characters is alphanumeric, `_` or `-`.  Consequently, in an encoded stored
filename the `__` separator can occur only at the boundaries inserted by the
codec, never inside a single sanitized segment. -/
theorem sanitize_output_invariant (name : List Char) (max_length : Nat) :
    (∀ c ∈ sanitize_name name max_length, keepChar c = true) ∧
    hasDunder (sanitize_name name max_length) = false :=
  ⟨fun c hc => sanitize_name_mem_keep _ _ c hc, sanitize_name_noDunder _ _⟩

/-- Witness for C10 at a concrete input. -/
theorem sanitize_output_invariant_witness :
    keepChar 'И' = true ∧ hasDunder (sanitize_name "Иван Петров!".data 50) = false :=
  ⟨(sanitize_output_invariant ("Иван Петров!".data) 50).1 'И' (by decide),
   (sanitize_output_invariant ("Иван Петров!".data) 50).2⟩

/-! ## Claim C1 -/

/-- C1 counterexample: `sanitize` is NOT idempotent for every string and every
positive length bound.  Two failing inputs: (i) with the default bound 50, a
51-character name whose truncation at 50 ends in `_` re-sanitises to something
shorter; (ii) with bound 2, the empty string maps to `"anon"` (the fallback
ignores the bound), which re-sanitises to `"an"`. -/
theorem sanitize_idempotence_counterexample :
    (0 < 50 ∧
      sanitize_name (sanitize_name
        "aaaaaaaaaaaaaaaaaaaaaaaaaaaaaaaaaaaaaaaaaaaaaaaaa_b".data 50) 50 ≠
      sanitize_name "aaaaaaaaaaaaaaaaaaaaaaaaaaaaaaaaaaaaaaaaaaaaaaaaa_b".data 50) ∧
    (0 < 2 ∧ sanitize_name (sanitize_name [] 2) 2 ≠ sanitize_name [] 2) := by
  refine ⟨⟨by decide, by decide⟩, ⟨by decide, by decide⟩⟩

/-- C1 (amended): `sanitize_name` never returns the empty string — it returns
the literal `"anon"` for the empty string and for inputs consisting entirely
of disallowed characters — and `sanitize(sanitize(x, L), L) = sanitize(x, L)`
holds provided `4 ≤ L` (so the 4-character `"anon"` fallback fits the bound)
and the first application's result does not end in an underscore (truncation
at `L` can leave a trailing underscore, which a second application strips). -/
theorem sanitize_never_empty_and_conditionally_idempotent (x : List Char) (L : Nat) :
    sanitize_name x L ≠ [] ∧
    (x = [] → sanitize_name x L = anonToken) ∧
    ((∀ c ∈ x, keepChar c = false) → sanitize_name x L = anonToken) ∧
    (4 ≤ L → (sanitize_name x L).getLast? ≠ some '_' →
      sanitize_name (sanitize_name x L) L = sanitize_name x L) := by
  refine ⟨sanitize_name_ne_nil x L, ?_, ?_, ?_⟩
  · intro hx
    rw [sanitize_name, if_pos hx]
  · intro hall
    by_cases hx : x = []
    · rw [sanitize_name, if_pos hx]
    · simp only [sanitize_name, if_neg hx]
      have hmap : ∀ c ∈ x.map (fun c => if keepChar c then c else '_'), c = '_' := by
        intro c hc
        obtain ⟨a, ha, hac⟩ := List.mem_map.1 hc
        rw [hall a ha] at hac
        simpa using hac.symm
      have hcoll : ∀ c ∈ collapseUnderscores (x.map (fun c => if keepChar c then c else '_')),
          c = '_' := fun c hc => hmap c (mem_collapseUnderscores _ _ hc)
      have hstrip : stripUnderscores (collapseUnderscores
          (x.map (fun c => if keepChar c then c else '_'))) = [] := by
        rw [stripUnderscores]
        have hdw : (collapseUnderscores
            (x.map (fun c => if keepChar c then c else '_'))).dropWhile
              (fun c => decide (c = '_')) = [] :=
          List.dropWhile_eq_nil_iff.mpr fun c hc => by simp [hcoll c hc]
        rw [hdw]
        rfl
      rw [hstrip]
      simp
  · intro hL hlast
    have h6 : (sanitize_name x L).length ≤ L := by
      have := sanitize_name_length_le x L
      omega
    exact sanitize_fixpoint _ _ (sanitize_name_ne_nil x L)
      (fun c hc => sanitize_name_mem_keep _ _ c hc) (sanitize_name_noDunder x L)
      (sanitize_name_head_ne x L) hlast h6

/-- Witness for C1 (amended) at a concrete input. -/
theorem sanitize_claim_witness :
    sanitize_name "Иван Петров!".data 50 ≠ [] ∧
    sanitize_name (sanitize_name "Иван Петров!".data 50) 50 =
      sanitize_name "Иван Петров!".data 50 :=
  ⟨(sanitize_never_empty_and_conditionally_idempotent ("Иван Петров!".data) 50).1,
   (sanitize_never_empty_and_conditionally_idempotent ("Иван Петров!".data) 50).2.2.2
     (by decide) (by decide)⟩

/-! ## Lemmas: the classify_text fold -/

theorem catkw_pairs (p : DocumentCategory × List (List Char)) (hp : p ∈ CATEGORY_KEYWORDS) :
    p.2 = keywordsFor p.1 ∧ p.1 ≠ DocumentCategory.UNCLASSIFIED := by
  simp only [CATEGORY_KEYWORDS, List.mem_cons, List.not_mem_nil, or_false] at hp
  rcases hp with h | h | h | h | h | h <;> subst h <;> exact ⟨rfl, by simp⟩

theorem catkw_mem (c : DocumentCategory) (h : c ≠ DocumentCategory.UNCLASSIFIED) :
    (c, keywordsFor c) ∈ CATEGORY_KEYWORDS := by
  cases c <;> simp_all [CATEGORY_KEYWORDS, keywordsFor]

theorem enumIndex_le_six (c : DocumentCategory) : enumIndex c ≤ 6 := by
  cases c <;> simp [enumIndex]

/-- Characterisation of the best-category fold of `classify_text`: the
resulting hit count dominates the accumulator and every scanned category, and
the resulting best is either the untouched accumulator or the category at some
position of the list, which strictly beat the accumulator and everything
before it. -/
theorem foldl_stepFn_spec (tl : List Char) (l : List (DocumentCategory × List (List Char)))
    (acc : DocumentCategory × Nat) :
    (acc.2 ≤ (l.foldl (stepFn tl) acc).2 ∧
      ∀ p ∈ l, countHits tl p.2 ≤ (l.foldl (stepFn tl) acc).2) ∧
    ((l.foldl (stepFn tl) acc) = acc ∨
      ∃ pre p post, l = pre ++ p :: post ∧
        (l.foldl (stepFn tl) acc).1 = p.1 ∧
        (l.foldl (stepFn tl) acc).2 = countHits tl p.2 ∧
        acc.2 < countHits tl p.2 ∧
        ∀ q ∈ pre, countHits tl q.2 < countHits tl p.2) := by
  induction l generalizing acc with
  | nil => exact ⟨⟨le_refl _, by simp⟩, Or.inl rfl⟩
  | cons p0 l ih =>
    have hstep : acc.2 ≤ (stepFn tl acc p0).2 ∧ countHits tl p0.2 ≤ (stepFn tl acc p0).2 ∧
        (stepFn tl acc p0 = acc ∨
          ((stepFn tl acc p0).1 = p0.1 ∧ (stepFn tl acc p0).2 = countHits tl p0.2 ∧
            acc.2 < countHits tl p0.2)) := by
      rw [stepFn]
      split
      · next h => exact ⟨le_of_lt h, le_refl _, Or.inr ⟨rfl, rfl, h⟩⟩
      · next h => exact ⟨le_refl _, not_lt.mp h, Or.inl rfl⟩
    obtain ⟨⟨ih1, ih2⟩, ih3⟩ := ih (stepFn tl acc p0)
    rw [List.foldl_cons]
    refine ⟨⟨le_trans hstep.1 ih1, ?_⟩, ?_⟩
    · intro q hq
      rcases List.mem_cons.1 hq with hq | hq
      · rw [hq]
        exact le_trans hstep.2.1 ih1
      · exact ih2 q hq
    · rcases ih3 with hF | ⟨pre, p, post, hsplit, f1, f2, f3, f4⟩
      · rcases hstep.2.2 with hid | ⟨e1, e2, e3⟩
        · exact Or.inl (hF.trans hid)
        · refine Or.inr ⟨[], p0, l, rfl, ?_, ?_, ?_, by simp⟩
          · rw [hF, e1]
          · rw [hF, e2]
          · exact e3
      · refine Or.inr ⟨p0 :: pre, p, post, by rw [hsplit]; rfl, f1, f2,
          lt_of_le_of_lt hstep.1 f3, ?_⟩
        intro q hq
        rcases List.mem_cons.1 hq with hq | hq
        · rw [hq]
          exact lt_of_le_of_lt hstep.2.1 f3
        · exact f4 q hq

/-- When the concrete `CATEGORY_KEYWORDS` list splits as `pre ++ p :: post`,
every category strictly earlier in enumeration order than `p.1` sits (with its
keyword list) in `pre`. -/
theorem pre_of_enum_lt (pre post : List (DocumentCategory × List (List Char)))
    (p : DocumentCategory × List (List Char))
    (hsplit : CATEGORY_KEYWORDS = pre ++ p :: post) (c : DocumentCategory)
    (hc : c ≠ DocumentCategory.UNCLASSIFIED) (hlt : enumIndex c < enumIndex p.1) :
    (c, keywordsFor c) ∈ pre := by
  rcases pre with _ | ⟨q1, pre⟩
  · simp only [CATEGORY_KEYWORDS, List.nil_append, List.cons.injEq] at hsplit
    rw [← hsplit.1] at hlt
    cases c <;> simp [enumIndex] at hlt <;> simp_all
  rcases pre with _ | ⟨q2, pre⟩
  · simp only [CATEGORY_KEYWORDS, List.cons_append, List.nil_append, List.cons.injEq] at hsplit
    obtain ⟨h1, h2, -⟩ := hsplit
    rw [← h2] at hlt
    rw [← h1]
    cases c <;> simp [enumIndex] at hlt hc ⊢ <;> simp_all [keywordsFor]
  rcases pre with _ | ⟨q3, pre⟩
  · simp only [CATEGORY_KEYWORDS, List.cons_append, List.nil_append, List.cons.injEq] at hsplit
    obtain ⟨h1, h2, h3, -⟩ := hsplit
    rw [← h3] at hlt
    rw [← h1, ← h2]
    cases c <;> simp [enumIndex] at hlt hc ⊢ <;> simp_all [keywordsFor]
  rcases pre with _ | ⟨q4, pre⟩
  · simp only [CATEGORY_KEYWORDS, List.cons_append, List.nil_append, List.cons.injEq] at hsplit
    obtain ⟨h1, h2, h3, h4, -⟩ := hsplit
    rw [← h4] at hlt
    rw [← h1, ← h2, ← h3]
    cases c <;> simp [enumIndex] at hlt hc ⊢ <;> simp_all [keywordsFor]
  rcases pre with _ | ⟨q5, pre⟩
  · simp only [CATEGORY_KEYWORDS, List.cons_append, List.nil_append, List.cons.injEq] at hsplit
    obtain ⟨h1, h2, h3, h4, h5, -⟩ := hsplit
    rw [← h5] at hlt
    rw [← h1, ← h2, ← h3, ← h4]
    cases c <;> simp [enumIndex] at hlt hc ⊢ <;> simp_all [keywordsFor]
  rcases pre with _ | ⟨q6, pre⟩
  · simp only [CATEGORY_KEYWORDS, List.cons_append, List.nil_append, List.cons.injEq] at hsplit
    obtain ⟨h1, h2, h3, h4, h5, h6, -⟩ := hsplit
    rw [← h6] at hlt
    rw [← h1, ← h2, ← h3, ← h4, ← h5]
    cases c <;> simp [enumIndex] at hlt hc ⊢ <;> simp_all [keywordsFor]
  · exfalso
    have hlen := congrArg List.length hsplit
    simp only [CATEGORY_KEYWORDS, List.length_append, List.length_cons, List.length_nil] at hlen
    omega

/-! ## Claim C2 -/

/-- C2: `classify_text` returns the category whose summed case-insensitive
keyword-substring hit count is strictly greatest; among categories tied for
the maximum, the one first in the fixed enumeration order wins (a candidate
replaces the current best only on a strict improvement); if the maximum count
is zero the result is Unclassified. -/
theorem classify_text_claim (text : List Char) :
    ((∀ c : DocumentCategory, categoryHits text c = 0) →
        classify_text text = DocumentCategory.UNCLASSIFIED) ∧
    ((∃ c : DocumentCategory, 0 < categoryHits text c) →
        classify_text text ≠ DocumentCategory.UNCLASSIFIED) ∧
    (classify_text text ≠ DocumentCategory.UNCLASSIFIED →
      (∀ c : DocumentCategory, categoryHits text c ≤ categoryHits text (classify_text text)) ∧
      (∀ c : DocumentCategory, enumIndex c < enumIndex (classify_text text) →
        categoryHits text c < categoryHits text (classify_text text))) := by
  by_cases htext : text = []
  · subst htext
    have hz : ∀ c : DocumentCategory, categoryHits [] c = 0 := by
      intro c
      cases c <;> decide
    refine ⟨fun _ => rfl, fun ⟨c, hc⟩ => absurd (hz c) (by omega), fun hne => absurd rfl hne⟩
  · have hcl : classify_text text =
        (CATEGORY_KEYWORDS.foldl (stepFn (lowerList text))
          (DocumentCategory.UNCLASSIFIED, 0)).1 := by
      rw [classify_text, if_neg htext]
    obtain ⟨⟨hmax0, hmaxall⟩, hpin⟩ :=
      foldl_stepFn_spec (lowerList text) CATEGORY_KEYWORDS (DocumentCategory.UNCLASSIFIED, 0)
    refine ⟨?_, ?_, ?_⟩
    · intro hz
      rcases hpin with hF | ⟨pre, p, post, hsplit, f1, f2, f3, f4⟩
      · rw [hcl, hF]
      · exfalso
        have hp : p ∈ CATEGORY_KEYWORDS := hsplit ▸ List.mem_append_right _ (List.mem_cons_self _ _)
        have hkw := (catkw_pairs p hp).1
        have : countHits (lowerList text) p.2 = categoryHits text p.1 := by
          rw [hkw]; rfl
        rw [this] at f3
        rw [hz p.1] at f3
        simp at f3
    · rintro ⟨c, hc⟩ heq
      rcases hpin with hF | ⟨pre, p, post, hsplit, f1, f2, f3, f4⟩
      · by_cases hcu : c = DocumentCategory.UNCLASSIFIED
        · rw [hcu] at hc
          have h0 : categoryHits text DocumentCategory.UNCLASSIFIED = 0 := rfl
          omega
        · have hmem := catkw_mem c hcu
          have hle := hmaxall _ hmem
          rw [hF] at hle
          simp only [categoryHits] at hc
          simp at hle
          omega
      · have hp : p ∈ CATEGORY_KEYWORDS := hsplit ▸ List.mem_append_right _ (List.mem_cons_self _ _)
        have hne := (catkw_pairs p hp).2
        rw [hcl, f1] at heq
        exact hne heq
    · intro hne
      rcases hpin with hF | ⟨pre, p, post, hsplit, f1, f2, f3, f4⟩
      · exact absurd (by rw [hcl, hF]) hne
      · have hp : p ∈ CATEGORY_KEYWORDS := hsplit ▸ List.mem_append_right _ (List.mem_cons_self _ _)
        have hkw := (catkw_pairs p hp).1
        have hrhits : categoryHits text (classify_text text) = countHits (lowerList text) p.2 := by
          rw [hcl, f1, hkw]; rfl
        constructor
        · intro c
          by_cases hcu : c = DocumentCategory.UNCLASSIFIED
          · rw [hcu]
            have : categoryHits text DocumentCategory.UNCLASSIFIED = 0 := rfl
            rw [this]
            exact Nat.zero_le _
          · have := hmaxall _ (catkw_mem c hcu)
            rw [f2] at this
            rw [hrhits]
            exact this
        · intro c hlt
          by_cases hcu : c = DocumentCategory.UNCLASSIFIED
          · exfalso
            rw [hcu] at hlt
            have h6 := enumIndex_le_six (classify_text text)
            have : enumIndex DocumentCategory.UNCLASSIFIED = 6 := rfl
            omega
          · have hltp : enumIndex c < enumIndex p.1 := by rw [hcl, f1] at hlt; exact hlt
            have hpre := pre_of_enum_lt pre post p hsplit c hcu hltp
            have := f4 _ hpre
            rw [hrhits]
            exact this

/-- Witness for C2 at the spec's own example text. -/
theorem classify_text_claim_witness :
    classify_text "Выдано удостоверение ID 12345".data ≠ DocumentCategory.UNCLASSIFIED :=
  (classify_text_claim ("Выдано удостоверение ID 12345".data)).2.1
    ⟨DocumentCategory.UDOSTOVERENIE, by decide⟩

/-! ## Lemmas: the rate limiter -/

theorem dropOld_of_head_ge (now W X : ℚ) (reqs : List ℚ) (hreq : ∀ t ∈ reqs, X ≤ t)
    (hnow : now ≤ X + W) : dropOld now W reqs = reqs := by
  cases reqs with
  | nil => rfl
  | cons p0 ps =>
    rw [dropOld, List.dropWhile_cons]
    have h1 : X ≤ p0 := hreq p0 (List.mem_cons_self _ _)
    have : ¬(p0 < now - W) := by linarith
    simp [this]

theorem checksFrom_all_ok (N : Nat) (W X : ℚ) (ts : List ℚ) (pre : List ℚ)
    (hpre : ∀ t ∈ pre, X ≤ t)
    (hts : ∀ t ∈ ts, X ≤ t ∧ t ≤ X + W)
    (hlen : pre.length + ts.length ≤ N) :
    checksFrom ⟨N, W⟩ pre ts = (List.replicate ts.length false, pre ++ ts) := by
  induction ts generalizing pre with
  | nil => simp [checksFrom]
  | cons t ts ih =>
    have hdrop : dropOld t W pre = pre :=
      dropOld_of_head_ge t W X pre hpre (hts t (List.mem_cons_self _ _)).2
    have hlt : pre.length < N := by
      simp only [List.length_cons] at hlen
      omega
    have hlim : is_limited ⟨N, W⟩ t pre = (false, pre ++ [t]) := by
      simp only [is_limited, hdrop]
      rw [if_neg (by omega)]
    rw [checksFrom, hlim]
    have hrec := ih (pre ++ [t])
      (by
        intro x hx
        rcases List.mem_append.1 hx with hx | hx
        · exact hpre x hx
        · rw [List.mem_singleton.1 hx]
          exact (hts t (List.mem_cons_self _ _)).1)
      (fun x hx => hts x (List.mem_cons_of_mem _ hx))
      (by
        simp only [List.length_append, List.length_singleton]
        simp only [List.length_cons] at hlen
        omega)
    rw [hrec]
    simp [List.replicate_succ]

theorem is_limited_full (N : Nat) (W X now : ℚ) (reqs : List ℚ)
    (hreq : ∀ t ∈ reqs, X ≤ t) (hnow : now ≤ X + W) (hlen : N ≤ reqs.length) :
    is_limited ⟨N, W⟩ now reqs = (true, reqs) := by
  have hdrop := dropOld_of_head_ge now W X reqs hreq hnow
  simp only [is_limited, hdrop]
  rw [if_pos hlen]

theorem is_limited_reset (N : Nat) (W now : ℚ) (reqs : List ℚ) (hN : 1 ≤ N)
    (hold : ∀ t ∈ reqs, t < now - W) :
    is_limited ⟨N, W⟩ now reqs = (false, [now]) := by
  have hdrop : dropOld now W reqs = [] :=
    List.dropWhile_eq_nil_iff.mpr fun t ht => by simp [hold t ht]
  simp only [is_limited, hdrop]
  rw [if_neg (by simp; omega)]
  rfl

/-! ## Claim C4 -/

/-- C4: each `is_limited` check first drops the identifier's timestamps older
than `now - window` (for a time-sorted deque this is exactly the "older than
the cutoff" filter); if at least `rate` timestamps remain, the check reports
limited without recording; otherwise it records `now` and reports not limited.
Consequently, starting from an empty state, `N` checks inside one window all
succeed, an `(N+1)`-th check inside the window is limited, and once the window
has fully elapsed a fresh batch of `N` checks succeeds again (full capacity
regained). -/
theorem rate_limiter_claim (N : Nat) (W t0 tLim now2 : ℚ) (rest rest2 : List ℚ)
    (hN : 1 ≤ N)
    (hlen : (t0 :: rest).length = N)
    (hin : ∀ t ∈ t0 :: rest, t0 ≤ t ∧ t ≤ tLim)
    (hwin : tLim ≤ t0 + W)
    (hre : tLim + W < now2)
    (hlen2 : (now2 :: rest2).length = N)
    (hin2 : ∀ t ∈ now2 :: rest2, now2 ≤ t ∧ t ≤ now2 + W) :
    (∀ now reqs, List.Pairwise (· ≤ ·) reqs →
        dropOld now W reqs = reqs.filter (fun t => decide (now - W ≤ t))) ∧
    (∀ now reqs, N ≤ (dropOld now W reqs).length →
        is_limited ⟨N, W⟩ now reqs = (true, dropOld now W reqs)) ∧
    (∀ now reqs, (dropOld now W reqs).length < N →
        is_limited ⟨N, W⟩ now reqs = (false, dropOld now W reqs ++ [now])) ∧
    checksFrom ⟨N, W⟩ [] (t0 :: rest) = (List.replicate N false, t0 :: rest) ∧
    is_limited ⟨N, W⟩ tLim (t0 :: rest) = (true, t0 :: rest) ∧
    checksFrom ⟨N, W⟩ (t0 :: rest) (now2 :: rest2) = (List.replicate N false, now2 :: rest2) := by
  refine ⟨?_, ?_, ?_, ?_, ?_, ?_⟩
  · intro now reqs hsort
    induction reqs with
    | nil => rfl
    | cons a l ih =>
      obtain ⟨hall, htail⟩ := List.pairwise_cons.mp hsort
      rw [dropOld, List.dropWhile_cons, List.filter_cons]
      simp only [decide_eq_true_eq]
      by_cases ha : a < now - W
      · have h2 : ¬(now - W ≤ a) := by linarith
        rw [if_pos ha, if_neg h2]
        have hrec := ih htail
        rw [dropOld] at hrec
        exact hrec
      · have h1 : now - W ≤ a := by linarith
        rw [if_neg ha, if_pos h1]
        have hfl : l.filter (fun t => decide (now - W ≤ t)) = l :=
          List.filter_eq_self.mpr fun b hb => by
            have := hall b hb
            simp only [decide_eq_true_eq]
            linarith
        rw [hfl]
  · intro now reqs h
    simp only [is_limited]
    rw [if_pos h]
  · intro now reqs h
    simp only [is_limited]
    rw [if_neg (by omega)]
  · have := checksFrom_all_ok N W t0 (t0 :: rest) []
      (by simp)
      (fun t ht => ⟨(hin t ht).1, le_trans (hin t ht).2 hwin⟩)
      (by simp [hlen])
    rw [this, hlen]
    rfl
  · exact is_limited_full N W t0 tLim (t0 :: rest)
      (fun t ht => (hin t ht).1) hwin (by omega)
  · have hreset : is_limited ⟨N, W⟩ now2 (t0 :: rest) = (false, [now2]) :=
      is_limited_reset N W now2 (t0 :: rest) hN
        (fun t ht => by have := (hin t ht).2; linarith)
    rw [checksFrom, hreset]
    have hrec := checksFrom_all_ok N W now2 rest2 [now2]
      (by simp)
      (fun t ht => hin2 t (List.mem_cons_of_mem _ ht))
      (by
        simp only [List.length_singleton]
        simp only [List.length_cons] at hlen2
        omega)
    rw [hrec]
    have h2 : rest2.length + 1 = N := by
      simp only [List.length_cons] at hlen2
      omega
    simp only [List.singleton_append]
    rw [← h2, List.replicate_succ]

/-- Witness for C4: rate 2 per 60-second window; checks at times 0 and 10
succeed, a third check at 20 is limited, and after the window has elapsed two
checks at 100 and 110 succeed again. -/
theorem rate_limiter_claim_witness :
    checksFrom ⟨2, 60⟩ [] [0, 10] = ([false, false], [0, 10]) ∧
    is_limited ⟨2, 60⟩ 20 [0, 10] = (true, [0, 10]) ∧
    checksFrom ⟨2, 60⟩ [0, 10] [100, 110] = ([false, false], [100, 110]) := by
  have h := rate_limiter_claim 2 60 0 20 100 [10] [110] (by norm_num) (by norm_num)
    (by
      intro t ht
      simp only [List.mem_cons, List.not_mem_nil, or_false] at ht
      rcases ht with rfl | rfl <;> norm_num)
    (by norm_num) (by norm_num) (by norm_num)
    (by
      intro t ht
      simp only [List.mem_cons, List.not_mem_nil, or_false] at ht
      rcases ht with rfl | rfl <;> norm_num)
  exact ⟨h.2.2.2.1, h.2.2.2.2.1, h.2.2.2.2.2⟩

/-! ## Lemmas: PDF page accumulation -/

theorem sumLens_cons (t : List Char) (ls : List (List Char)) :
    sumLens (t :: ls) = t.length + sumLens ls := by
  simp [sumLens]

/-- The page loop keeps exactly a prefix of the page texts: all of them, or
the shortest prefix whose total length reaches the threshold. -/
theorem accumPages_spec (maxLen : Nat) (total : Nat) (texts : List (List Char)) :
    ∃ k, k ≤ texts.length ∧ accumPages maxLen total texts = texts.take k ∧
      (k = texts.length ∨ maxLen ≤ total + sumLens (texts.take k)) ∧
      (∀ j, 0 < j → j < k → total + sumLens (texts.take j) < maxLen) := by
  induction texts generalizing total with
  | nil => exact ⟨0, by simp, rfl, Or.inl rfl, by omega⟩
  | cons t ts ih =>
    by_cases h : maxLen ≤ total + t.length
    · refine ⟨1, by simp, ?_, Or.inr ?_, by omega⟩
      · rw [accumPages, if_pos h]
        rfl
      · rw [List.take_succ_cons, List.take_zero, sumLens_cons]
        simp [sumLens]
        omega
    · obtain ⟨k, hk1, hk2, hk3, hk4⟩ := ih (total + t.length)
      refine ⟨k + 1, by simp; omega, ?_, ?_, ?_⟩
      · rw [accumPages, if_neg h, hk2, List.take_succ_cons]
      · rcases hk3 with hk3 | hk3
        · left
          simp [hk3]
        · right
          rw [List.take_succ_cons, sumLens_cons]
          omega
      · intro j hj0 hjk
        cases j with
        | zero => omega
        | succ j' =>
          rw [List.take_succ_cons, sumLens_cons]
          cases Nat.eq_zero_or_pos j' with
          | inl hz =>
            subst hz
            simp only [List.take_zero, sumLens]
            simp
            omega
          | inr hpos =>
            have := hk4 j' hpos (by omega)
            omega

/-! ## Claim C5 -/

/-- C5 counterexample: the early-stop threshold is NOT 500 characters.  With
the code's single `max_text_extract_length` setting (default 5000), a first
page of 501 characters — beyond the claimed 500-character threshold — does not
stop the loop: the second page is still processed and its text appears in the
result. -/
theorem extract_pdf_threshold_counterexample :
    extract_text_from_pdf defaultMaxTextLen
        (.ok [.ok (List.replicate 501 'a'), .ok ['b']]) =
      List.replicate 501 'a' ++ '\n' :: ['b'] ∧
    extract_text_from_pdf defaultMaxTextLen
        (.ok [.ok (List.replicate 501 'a'), .ok ['b']]) ≠
      List.replicate 501 'a' := by
  constructor
  · decide
  · decide

/-- C5 (amended): the PDF extractor accumulates per-page OCR text in page
order and stops after the page that brings the accumulated length to the
threshold `max_text_extract_length` — the SAME setting as the hard maximum,
default 5000, not a separate 500-character target — and the final joined text
is truncated to that maximum length. -/
theorem extract_pdf_claim (maxLen : Nat) (ocrs : List (Except Unit (List Char))) :
    (extract_text_from_pdf maxLen (.ok ocrs)).length ≤ maxLen ∧
    ∃ k, k ≤ ocrs.length ∧
      accumPages maxLen 0 (ocrs.map (extract_text_from_image maxLen)) =
        (ocrs.map (extract_text_from_image maxLen)).take k ∧
      (k = ocrs.length ∨
        maxLen ≤ sumLens ((ocrs.map (extract_text_from_image maxLen)).take k)) ∧
      (∀ j, 0 < j → j < k →
        sumLens ((ocrs.map (extract_text_from_image maxLen)).take j) < maxLen) := by
  constructor
  · exact List.length_take_le _ _
  · obtain ⟨k, hk1, hk2, hk3, hk4⟩ :=
      accumPages_spec maxLen 0 (ocrs.map (extract_text_from_image maxLen))
    refine ⟨k, by simpa using hk1, hk2, ?_, ?_⟩
    · rcases hk3 with hk3 | hk3
      · left
        simpa using hk3
      · right
        omega
    · intro j hj0 hjk
      have := hk4 j hj0 hjk
      omega

/-! ## Claim C7 -/

/-- C7: `extract_text` is total over every engine outcome — it never raises.
A failed PDF rasterisation, a failed image decode, and a failed or timed-out
OCR call each degrade to the empty string; per-page OCR failures inside a PDF
contribute the empty string for that page while the remaining pages are still
processed; and downstream classification of empty text deterministically
yields Unclassified. -/
theorem extract_text_never_raises (maxLen : Nat) :
    (∀ e : Unit, extract_text maxLen (.pdf (.error e)) = []) ∧
    (∀ e : Unit, extract_text maxLen (.image (.error e)) = []) ∧
    (∀ e : Unit, extract_text maxLen (.image (.ok (.error e))) = []) ∧
    (∀ e : Unit, extract_text_from_image maxLen (.error e) = []) ∧
    (∀ pages, extract_text maxLen (.pdf (.ok pages)) =
      (joinNewline (accumPages maxLen 0
        (pages.map (extract_text_from_image maxLen)))).take maxLen) ∧
    classify_text [] = DocumentCategory.UNCLASSIFIED :=
  ⟨fun _ => rfl, fun _ => rfl, fun _ => rfl, fun _ => rfl, fun _ => rfl, rfl⟩

/-! ## Lemmas: retention sweep -/

theorem cleanup_filter_spec (cutoff : ℚ) (entries : List FsEntry) :
    (cleanup_old_files cutoff entries).1 =
      entries.filter (fun e => !sweepRemoves cutoff e) ∧
    (cleanup_old_files cutoff entries).2 = entries.countP (sweepRemoves cutoff) := by
  induction entries with
  | nil => exact ⟨rfl, rfl⟩
  | cons e rest ih =>
    rw [cleanup_old_files]
    rw [List.filter_cons, List.countP_cons]
    by_cases hf : e.isFile
    · cases hs : e.stat with
      | ok m =>
        by_cases hm : m < cutoff
        · have hrem : sweepRemoves cutoff e = true := by simp [sweepRemoves, hf, hs, hm]
          simp only [hf, hs, hm, if_pos, hrem, Bool.not_true, ih.1, ih.2]
          simp
        · have hrem : sweepRemoves cutoff e = false := by simp [sweepRemoves, hf, hs, hm]
          simp only [hf, hs, hrem, Bool.not_false, ih.1, ih.2]
          simp [hm]
      | error u =>
        have hrem : sweepRemoves cutoff e = false := by simp [sweepRemoves, hs]
        simp only [hf, hs, hrem, Bool.not_false, ih.1, ih.2]
        simp
    · have hrem : sweepRemoves cutoff e = false := by simp [sweepRemoves, hf]
      simp only [hf, hrem, Bool.not_false, ih.1, ih.2]
      simp

/-! ## Claim C9 -/

/-- C9: on each sweep, every regular file whose modification time is strictly
older than `now - max_age_days` (in seconds) is deleted and every regular file
at or after the cutoff is retained; in particular a file aged
`max_age_days + 1` days is deleted and a file aged `max_age_days - 1` days is
retained; and a stat/unlink error on one file leaves that file in place while
the sweep over the other entries proceeds unhindered (the result is a simple
per-entry filter of the directory listing). -/
theorem cleanup_claim (now : ℚ) (days : Nat) (hdays : 1 ≤ days) (entries : List FsEntry)
    (e : FsEntry) (m : ℚ) (he : e ∈ entries) :
    (cleanup_old_files (cleanupCutoff now days) entries).1 =
      entries.filter (fun x => !sweepRemoves (cleanupCutoff now days) x) ∧
    (e.isFile = true → e.stat = .ok m → m < cleanupCutoff now days →
      e ∉ (cleanup_old_files (cleanupCutoff now days) entries).1) ∧
    (e.isFile = true → e.stat = .ok m → cleanupCutoff now days ≤ m →
      e ∈ (cleanup_old_files (cleanupCutoff now days) entries).1) ∧
    (e.isFile = true → e.stat = .ok (now - ((days : ℚ) + 1) * 86400) →
      e ∉ (cleanup_old_files (cleanupCutoff now days) entries).1) ∧
    (e.isFile = true → e.stat = .ok (now - ((days : ℚ) - 1) * 86400) →
      e ∈ (cleanup_old_files (cleanupCutoff now days) entries).1) ∧
    (e.stat = .error () → e ∈ (cleanup_old_files (cleanupCutoff now days) entries).1) := by
  have hspec := (cleanup_filter_spec (cleanupCutoff now days) entries).1
  have h86 : (days : ℚ) * 24 * 3600 = (days : ℚ) * 86400 := by ring
  refine ⟨hspec, ?_, ?_, ?_, ?_, ?_⟩
  · intro hf hs hm hmem
    rw [hspec] at hmem
    have := (List.mem_filter.1 hmem).2
    simp [sweepRemoves, hf, hs, hm] at this
  · intro hf hs hm
    rw [hspec]
    refine List.mem_filter.2 ⟨he, ?_⟩
    simp [sweepRemoves, hf, hs]
    linarith
  · intro hf hs hmem
    rw [hspec] at hmem
    have := (List.mem_filter.1 hmem).2
    have hm : now - ((days : ℚ) + 1) * 86400 < cleanupCutoff now days := by
      rw [cleanupCutoff, h86]
      nlinarith [show (0:ℚ) < 86400 by norm_num]
    simp [sweepRemoves, hf, hs, hm] at this
  · intro hf hs
    rw [hspec]
    refine List.mem_filter.2 ⟨he, ?_⟩
    have hm : cleanupCutoff now days ≤ now - ((days : ℚ) - 1) * 86400 := by
      rw [cleanupCutoff, h86]
      nlinarith [show (0:ℚ) < 86400 by norm_num]
    simp [sweepRemoves, hf, hs]
    linarith
  · intro hs
    rw [hspec]
    refine List.mem_filter.2 ⟨he, ?_⟩
    simp [sweepRemoves, hs]

/-- Witness for C9 on a concrete three-entry directory: `now = 10000000`,
`max_age_days = 30`; a file aged 31 days is deleted, a file aged 29 days is
retained, and a file whose stat raises is retained while the sweep still
removes the old file. -/
theorem cleanup_claim_witness :
    (⟨"old.pdf".data, true, Except.ok 7321600⟩ : FsEntry) ∉
      (cleanup_old_files (cleanupCutoff 10000000 30)
        [⟨"old.pdf".data, true, Except.ok 7321600⟩,
         ⟨"new.pdf".data, true, Except.ok 7494400⟩,
         ⟨"err.pdf".data, true, Except.error ()⟩]).1 ∧
    (⟨"new.pdf".data, true, Except.ok 7494400⟩ : FsEntry) ∈
      (cleanup_old_files (cleanupCutoff 10000000 30)
        [⟨"old.pdf".data, true, Except.ok 7321600⟩,
         ⟨"new.pdf".data, true, Except.ok 7494400⟩,
         ⟨"err.pdf".data, true, Except.error ()⟩]).1 ∧
    (⟨"err.pdf".data, true, Except.error ()⟩ : FsEntry) ∈
      (cleanup_old_files (cleanupCutoff 10000000 30)
        [⟨"old.pdf".data, true, Except.ok 7321600⟩,
         ⟨"new.pdf".data, true, Except.ok 7494400⟩,
         ⟨"err.pdf".data, true, Except.error ()⟩]).1 := by
  refine ⟨?_, ?_, ?_⟩
  · exact (cleanup_claim 10000000 30 (by norm_num) _ _ 0
      (List.mem_cons_self _ _)).2.2.2.1 rfl
      (by push_cast; norm_num)
  · exact (cleanup_claim 10000000 30 (by norm_num) _ _ 0
      (List.mem_cons_of_mem _ (List.mem_cons_self _ _))).2.2.2.2.1 rfl
      (by push_cast; norm_num)
  · exact (cleanup_claim 10000000 30 (by norm_num) _ _ 0
      (List.mem_cons_of_mem _ (List.mem_cons_of_mem _ (List.mem_cons_self _ _)))).2.2.2.2.2 rfl

/-! ## Lemmas: the collision-probe loop -/

theorem probeAux_none_all (onDisk : List Char → Bool) (cand : Nat → List Char)
    (hall : ∀ i, 1 ≤ i → i ≤ 1000 → onDisk (cand i) = true) :
    ∀ fuel idx, idx + fuel = 1001 → 1 ≤ idx → probeAux onDisk cand fuel idx = none := by
  intro fuel
  induction fuel with
  | zero => intro idx hidx hpos; rfl
  | succ f ih =>
    intro idx hidx hpos
    rw [probeAux]
    have hi1 : 1 ≤ idx := by omega
    have hi2 : idx ≤ 1000 := by omega
    rw [hall idx hi1 hi2]
    rw [if_neg (by simp)]
    by_cases h1000 : 1000 < idx + 1
    · rw [if_pos h1000]
    · rw [if_neg h1000]
      exact ih (idx + 1) (by omega) (by omega)

/-! ## Claim C6 -/

/-- C6 counterexample: when every one of the 1000 collision probes finds an
existing file, the per-file outcome record does NOT get status `"failed"` —
the code has no `"failed"` status at all; the record keeps the initial
`"unclassified"` status (with an empty stored filename) even though the file
was classified. -/
theorem collision_status_counterexample :
    (process_single_file (fun _ => true) "u".data 0 "n".data "l".data "doc.pdf".data
        (.ok ([7], "справка".data))).map (fun r => r.status) = some "unclassified" ∧
    (process_single_file (fun _ => true) "u".data 0 "n".data "l".data "doc.pdf".data
        (.ok ([7], "справка".data))).map (fun r => r.status) ≠ some "failed" := by
  constructor
  · decide
  · decide

/-- C6 (amended): if every one of the 1000 collision-index probes (indices 1
through 1000) finds an already-existing file on disk, the store aborts the
write: the file's outcome record keeps the initial `"unclassified"` status
with an empty stored filename (the code never produces a `"failed"` status),
and the rest of the batch continues around the fully-reported record. -/
theorem collision_exhaustion_claim (onDisk : List Char → Bool) (uuid : List Char) (now : Int)
    (name lastname original_name : List Char) (file_bytes : List Nat) (text : List Char)
    (hcat : classify_text text ≠ DocumentCategory.UNCLASSIFIED)
    (hall : ∀ i, 1 ≤ i → i ≤ 1000 →
      onDisk (candidateName (storageBaseOfStem (classify_text text) name lastname
        (pathStem original_name)) uuid i (extLower original_name)) = true) :
    process_single_file onDisk uuid now name lastname original_name (.ok (file_bytes, text)) =
      some ⟨uuid, original_name, categoryValue (classify_text text), [],
        file_bytes.length, now, "unclassified"⟩ ∧
    ∀ pre post : List UnitInput,
      process_batch onDisk name lastname
          (pre ++ ⟨uuid, now, original_name, .ok (file_bytes, text)⟩ :: post) =
        process_batch onDisk name lastname pre ++
          (⟨uuid, original_name, categoryValue (classify_text text), [],
            file_bytes.length, now, "unclassified"⟩ : ProcessedFile) ::
          process_batch onDisk name lastname post := by
  have hfind : find_unique_name onDisk
      (storageBaseOfStem (classify_text text) name lastname (pathStem original_name))
      uuid (extLower original_name) = none :=
    probeAux_none_all onDisk _ hall 1000 1 rfl (le_refl 1)
  have hpsf : process_single_file onDisk uuid now name lastname original_name
      (.ok (file_bytes, text)) =
      some ⟨uuid, original_name, categoryValue (classify_text text), [],
        file_bytes.length, now, "unclassified"⟩ := by
    simp only [process_single_file]
    rw [if_neg hcat, hfind]
  refine ⟨hpsf, ?_⟩
  intro pre post
  rw [process_batch, List.map_append, List.map_cons, List.filterMap_append,
    List.filterMap_cons]
  simp only [id]
  rw [hpsf]
  rfl

/-- Witness for C6 (amended) with an always-colliding disk oracle. -/
theorem collision_exhaustion_witness :
    process_single_file (fun _ => true) "u".data 0 "n".data "l".data "doc.pdf".data
        (.ok ([7], "справка".data)) =
      some ⟨"u".data, "doc.pdf".data, categoryValue (classify_text "справка".data), [],
        ([7] : List Nat).length, 0, "unclassified"⟩ :=
  (collision_exhaustion_claim (fun _ => true) ("u".data) 0 ("n".data) ("l".data)
    ("doc.pdf".data) [7] ("справка".data) (by decide) (fun i _ _ => rfl)).1

/-! ## Claim C8 -/

/-- C8: an exception raised while processing one staged file (modelled by an
`Except.error` processing step, which `process_single_file` catches and turns
into `None`) yields no ProcessedFile for that input and never prevents the
sibling files in the batch from reaching their own outcomes: the batch result
is exactly the concatenation of the outcomes of the units before and after
it, and a successfully processed unit contributes exactly its own record in
position. -/
theorem batch_isolation_claim (onDisk : List Char → Bool) (name lastname : List Char)
    (pre post : List UnitInput) (u : UnitInput) :
    (u.step = .error () →
      process_single_file onDisk u.uuid u.now name lastname u.original_name u.step = none ∧
      process_batch onDisk name lastname (pre ++ u :: post) =
        process_batch onDisk name lastname pre ++ process_batch onDisk name lastname post) ∧
    (∀ r, process_single_file onDisk u.uuid u.now name lastname u.original_name u.step
        = some r →
      process_batch onDisk name lastname (pre ++ u :: post) =
        process_batch onDisk name lastname pre ++ r ::
          process_batch onDisk name lastname post) := by
  constructor
  · intro hstep
    have hnone : process_single_file onDisk u.uuid u.now name lastname u.original_name
        u.step = none := by
      rw [hstep]
      rfl
    refine ⟨hnone, ?_⟩
    rw [process_batch, List.map_append, List.map_cons, List.filterMap_append,
      List.filterMap_cons]
    simp only [id]
    rw [hnone]
    rfl
  · intro r hsome
    rw [process_batch, List.map_append, List.map_cons, List.filterMap_append,
      List.filterMap_cons]
    simp only [id]
    rw [hsome]
    rfl

/-- Witness for C8: a batch of five staged files in which the third
deterministically raises during its processing step; the other four still
yield their own `saved`/`unclassified` outcomes and the batch does not
abort. -/
theorem batch_isolation_witness :
    process_batch (fun _ => false) "n".data "l".data
        [⟨"u1".data, 0, "a.pdf".data, .ok ([1], "справка".data)⟩,
         ⟨"u2".data, 0, "b.pdf".data, .ok ([1], "zzz".data)⟩,
         ⟨"u3".data, 0, "c.pdf".data, .error ()⟩,
         ⟨"u4".data, 0, "d.pdf".data, .ok ([1], "диплом".data)⟩,
         ⟨"u5".data, 0, "e.pdf".data, .ok ([1], [])⟩] =
      process_batch (fun _ => false) "n".data "l".data
        [⟨"u1".data, 0, "a.pdf".data, .ok ([1], "справка".data)⟩,
         ⟨"u2".data, 0, "b.pdf".data, .ok ([1], "zzz".data)⟩] ++
      process_batch (fun _ => false) "n".data "l".data
        [⟨"u4".data, 0, "d.pdf".data, .ok ([1], "диплом".data)⟩,
         ⟨"u5".data, 0, "e.pdf".data, .ok ([1], [])⟩] ∧
    (process_batch (fun _ => false) "n".data "l".data
        [⟨"u1".data, 0, "a.pdf".data, .ok ([1], "справка".data)⟩,
         ⟨"u2".data, 0, "b.pdf".data, .ok ([1], "zzz".data)⟩,
         ⟨"u3".data, 0, "c.pdf".data, .error ()⟩,
         ⟨"u4".data, 0, "d.pdf".data, .ok ([1], "диплом".data)⟩,
         ⟨"u5".data, 0, "e.pdf".data, .ok ([1], [])⟩]).length = 4 :=
  ⟨((batch_isolation_claim (fun _ => false) ("n".data) ("l".data)
      [⟨"u1".data, 0, "a.pdf".data, .ok ([1], "справка".data)⟩,
       ⟨"u2".data, 0, "b.pdf".data, .ok ([1], "zzz".data)⟩]
      [⟨"u4".data, 0, "d.pdf".data, .ok ([1], "диплом".data)⟩,
       ⟨"u5".data, 0, "e.pdf".data, .ok ([1], [])⟩]
      ⟨"u3".data, 0, "c.pdf".data, .error ()⟩).1 rfl).2,
   by decide⟩

/-! ## Lemmas: the filename codec -/

theorem mem_of_getLast?_eq (xs : List Char) (a : Char) (h : xs.getLast? = some a) : a ∈ xs := by
  induction xs with
  | nil => simp at h
  | cons c rest ih =>
    cases rest with
    | nil =>
      simp only [List.getLast?_singleton, Option.some.injEq] at h
      simp [h]
    | cons d ds =>
      rw [List.getLast?_cons_cons] at h
      exact List.mem_cons_of_mem _ (ih h)

theorem head?_append_left (u v : List Char) (hu : u ≠ []) : (u ++ v).head? = u.head? := by
  cases u with
  | nil => exact absurd rfl hu
  | cons a l => rfl

theorem getLast?_append_cons (u : List Char) (c : Char) (v : List Char) :
    (u ++ c :: v).getLast? = (c :: v).getLast? := by
  rw [List.getLast?_append]
  cases hy : (c :: v).getLast? with
  | none => exact absurd (List.getLast?_eq_none_iff.mp hy) (by simp)
  | some y => rfl

theorem getLast?_cons_of_ne_nil (c : Char) (v : List Char) (hv : v ≠ []) :
    (c :: v).getLast? = v.getLast? := by
  cases v with
  | nil => exact absurd rfl hv
  | cons d ds => rw [List.getLast?_cons_cons]

theorem hasDunder_cons_false (c : Char) (b : List Char) (hb : hasDunder b = false)
    (hh : b.head? ≠ some '_') : hasDunder (c :: b) = false := by
  rw [hasDunder]
  simp [hb, hh]

theorem splitLastChar_of_not_mem (ch : Char) (xs : List Char) (h : ch ∉ xs) :
    splitLastChar ch xs = none := by
  induction xs with
  | nil => rfl
  | cons c rest ih =>
    rw [splitLastChar]
    rw [ih fun hc => h (List.mem_cons_of_mem _ hc)]
    have : c ≠ ch := fun hc => h (hc ▸ List.mem_cons_self _ _)
    rw [if_neg this]

theorem splitLastChar_append (ch : Char) (u w : List Char) (hw : ch ∉ w) :
    splitLastChar ch (u ++ ch :: w) = some (u, w) := by
  induction u with
  | nil =>
    rw [List.nil_append, splitLastChar, splitLastChar_of_not_mem ch w hw, if_pos rfl]
  | cons c rest ih =>
    rw [List.cons_append, splitLastChar, ih]

theorem sdcAux_congr (f1 : Nat) : ∀ (f2 : Nat) (xs : List Char),
    xs.length ≤ f1 → xs.length ≤ f2 → sdcAux f1 xs = sdcAux f2 xs := by
  induction f1 with
  | zero =>
    intro f2 xs h1 h2
    have : xs = [] := List.length_eq_zero.mp (Nat.le_zero.mp h1)
    subst this
    cases f2 <;> rfl
  | succ g ih =>
    intro f2 xs h1 h2
    cases xs with
    | nil => cases f2 <;> rfl
    | cons c rest =>
      cases f2 with
      | zero => simp at h2
      | succ g2 =>
        rw [sdcAux, sdcAux]
        simp only [List.length_cons] at h1 h2
        by_cases hc : c = '_' ∧ rest.head? = some '_'
        · rw [if_pos hc, if_pos hc]
          have htl : rest.tail.length ≤ g ∧ rest.tail.length ≤ g2 := by
            have := List.length_tail rest
            constructor <;> omega
          rw [ih g2 rest.tail htl.1 htl.2]
        · rw [if_neg hc, if_neg hc]
          rw [ih g2 rest (by omega) (by omega)]

theorem sdcAux_noDunder (fuel : Nat) : ∀ xs : List Char, xs.length ≤ fuel →
    hasDunder xs = false → sdcAux fuel xs = (xs, []) := by
  induction fuel with
  | zero =>
    intro xs h1 _
    have : xs = [] := List.length_eq_zero.mp (Nat.le_zero.mp h1)
    subst this
    rfl
  | succ f ih =>
    intro xs h1 hd
    cases xs with
    | nil => rfl
    | cons c rest =>
      rw [sdcAux]
      rw [hasDunder] at hd
      simp only [Bool.or_eq_false_iff, Bool.and_eq_false_iff] at hd
      have hcond : ¬(c = '_' ∧ rest.head? = some '_') := by
        rcases hd.1 with h | h
        · intro hcon
          rw [hcon.1] at h
          simp at h
        · intro hcon
          rw [hcon.2] at h
          simp at h
      rw [if_neg hcond]
      rw [ih rest (by simp at h1; omega) hd.2]

/-- `split("__")` of a string with no `__` occurrence is the single-field
list. -/
theorem splitDunder_noDunder (z : List Char) (hz : hasDunder z = false) :
    splitDunder z = [z] := by
  rw [splitDunder, sdcAux_noDunder z.length z le_rfl hz]

theorem sdcAux_append (x : List Char) : ∀ (fuel : Nat) (y : List Char),
    x.length + 2 + y.length ≤ fuel → hasDunder x = false → x.getLast? ≠ some '_' →
    sdcAux fuel (x ++ '_' :: '_' :: y) =
      (x, (sdcAux y.length y).1 :: (sdcAux y.length y).2) := by
  induction x with
  | nil =>
    intro fuel y hf hd hl
    cases fuel with
    | zero => simp at hf
    | succ f =>
      rw [List.nil_append, sdcAux]
      rw [if_pos ⟨rfl, rfl⟩]
      simp only [List.tail_cons]
      rw [sdcAux_congr f y.length y (by simp at hf; omega) le_rfl]
  | cons c x ih =>
    intro fuel y hf hd hl
    cases fuel with
    | zero => simp at hf
    | succ f =>
      rw [List.cons_append, sdcAux]
      have hcond : ¬(c = '_' ∧ (x ++ '_' :: '_' :: y).head? = some '_') := by
        rintro ⟨hc, hh⟩
        cases x with
        | nil =>
          rw [hc] at hl
          simp at hl
        | cons d dx =>
          rw [List.cons_append, List.head?_cons, Option.some.injEq] at hh
          rw [hasDunder] at hd
          simp only [Bool.or_eq_false_iff, Bool.and_eq_false_iff] at hd
          rcases hd.1 with h | h
          · rw [hc] at h
            simp at h
          · rw [List.head?_cons, hh] at h
            simp at h
      rw [if_neg hcond]
      have hx : hasDunder x = false := by
        rw [hasDunder] at hd
        simp only [Bool.or_eq_false_iff] at hd
        exact hd.2
      have hxl : x.getLast? ≠ some '_' := by
        cases x with
        | nil => simp
        | cons d dx =>
          rw [getLast?_cons_of_ne_nil c (d :: dx) (by simp)] at hl
          exact hl
      rw [ih f y (by simp at hf ⊢; omega) hx hxl]

/-- `split("__")` peels off a leading field when the separator follows it
cleanly (the field has no `__` and does not end in `_`). -/
theorem splitDunder_append (x y : List Char) (hd : hasDunder x = false)
    (hl : x.getLast? ≠ some '_') :
    splitDunder (x ++ '_' :: '_' :: y) = x :: splitDunder y := by
  rw [splitDunder, splitDunder]
  rw [sdcAux_append x (x ++ '_' :: '_' :: y).length y (by simp; omega) hd hl]

theorem joinDunder_singleton (z : List Char) : joinDunder [z] = z := by
  rw [joinDunder]
  simp

/-- `Path(X ++ ext).stem = X` when the extension is the only dot and `X` is
nonempty. -/
theorem pathStem_append_ext (X tl : List Char) (hX : X ≠ []) (htl : tl ≠ [])
    (hdot : '.' ∉ tl) : pathStem (X ++ '.' :: tl) = X := by
  rw [pathStem, splitLastChar_append '.' X tl hdot]
  simp [hX, htl]

theorem digitChar_ne (d : Nat) : digitChar d ≠ '_' ∧ digitChar d ≠ '.' := by
  rw [digitChar]
  have hcases : d % 10 = 0 ∨ d % 10 = 1 ∨ d % 10 = 2 ∨ d % 10 = 3 ∨ d % 10 = 4 ∨
      d % 10 = 5 ∨ d % 10 = 6 ∨ d % 10 = 7 ∨ d % 10 = 8 ∨ d % 10 = 9 := by omega
  rcases hcases with h|h|h|h|h|h|h|h|h|h <;> rw [h] <;> exact ⟨by decide, by decide⟩

theorem natDigitsAux_chars (fuel : Nat) : ∀ (n : Nat) (c : Char),
    c ∈ natDigitsAux fuel n → c ≠ '_' ∧ c ≠ '.' := by
  induction fuel with
  | zero => intro n c h; simp [natDigitsAux] at h
  | succ f ih =>
    intro n c h
    rw [natDigitsAux] at h
    have hdigit : ∀ d : Nat, digitChar d ≠ '_' ∧ digitChar d ≠ '.' := digitChar_ne
    split at h
    · rw [List.mem_singleton.1 h]
      exact hdigit n
    · rcases List.mem_append.1 h with h | h
      · exact ih _ _ h
      · rw [List.mem_singleton.1 h]
        exact hdigit _

theorem natDigits_chars (n : Nat) (c : Char) (h : c ∈ natDigits n) : c ≠ '_' ∧ c ≠ '.' :=
  natDigitsAux_chars _ _ _ h

theorem natDigits_ne_nil (n : Nat) : natDigits n ≠ [] := by
  rw [natDigits, natDigitsAux]
  split
  · simp
  · simp

theorem natDigits_not_mem_underscore (n : Nat) : '_' ∉ natDigits n :=
  fun h => (natDigits_chars n '_' h).1 rfl

theorem natDigits_not_mem_dot (n : Nat) : '.' ∉ natDigits n :=
  fun h => (natDigits_chars n '.' h).2 rfl

theorem categoryValue_clean (c : DocumentCategory) :
    hasDunder (categoryValue c) = false ∧ (categoryValue c).getLast? ≠ some '_' := by
  cases c <;> exact ⟨by decide, by decide⟩

theorem sanitize_not_mem_dot (x : List Char) (L : Nat) : '.' ∉ sanitize_name x L := by
  intro h
  have := sanitize_name_mem_keep x L '.' h
  simp [keepChar, pyIsAlnum] at this

theorem ext_facts (ext : List Char) (h : ext ∈ ALLOWED_EXTENSIONS) :
    ∃ tl, ext = '.' :: tl ∧ tl ≠ [] ∧ '.' ∉ tl ∧ '_' ∉ ('.' :: tl) ∧
      hasDunder ('.' :: tl) = false := by
  simp only [ALLOWED_EXTENSIONS, List.mem_cons, List.not_mem_nil, or_false] at h
  rcases h with h | h | h | h <;> subst h
  · exact ⟨"pdf".data, rfl, by decide, by decide, by decide, by decide⟩
  · exact ⟨"jpg".data, rfl, by decide, by decide, by decide, by decide⟩
  · exact ⟨"jpeg".data, rfl, by decide, by decide, by decide, by decide⟩
  · exact ⟨"png".data, rfl, by decide, by decide, by decide, by decide⟩

/-- Round-trip of `parse_stored_filename` over an explicitly assembled
candidate name, for arbitrary "clean" segments: the category value, the two
sanitized name parts and the sanitized stem contain no `__`, do not start or
end with `_`, contain no `.` where it matters, the id is 36 characters with
no `_`/`.`, the collision index prints to digits, and the extension is a
single dot followed by a nonempty dot-free suffix. -/
theorem parse_candidate (CatV A B S uuid digits tl : List Char)
    (hCd : hasDunder CatV = false) (hCl : CatV.getLast? ≠ some '_')
    (hAd : hasDunder A = false) (hAl : A.getLast? ≠ some '_')
    (hBne : B ≠ []) (hBd : hasDunder B = false) (hBh : B.head? ≠ some '_')
    (hBl : B.getLast? ≠ some '_')
    (hSne : S ≠ []) (hSd : hasDunder S = false) (hSl : S.getLast? ≠ some '_')
    (hulen : uuid.length = 36) (huu : '_' ∉ uuid) (hud : '.' ∉ uuid)
    (hDne : digits ≠ []) (hDu : '_' ∉ digits) (hDd : '.' ∉ digits)
    (htlne : tl ≠ []) (htldot : '.' ∉ tl) (htldund : hasDunder ('.' :: tl) = false) :
    parse_stored_filename
      (CatV ++ ('_' :: ('_' :: ((A ++ ('_' :: B)) ++
        ('_' :: ('_' :: (S ++ ('_' :: (uuid ++ ('_' :: (digits ++ ('.' :: tl)))))))))))) =
      some ⟨uuid, CatV, A ++ ('_' :: B), S⟩ := by
  have huune : uuid ≠ [] := by
    intro hcon
    rw [hcon] at hulen
    simp at hulen
  have hdigh : (digits ++ '.' :: tl).head? ≠ some '_' := by
    rw [head?_append_left _ _ hDne]
    cases hdig : digits with
    | nil => exact absurd hdig hDne
    | cons d0 ds =>
      rw [List.head?_cons]
      intro hcon
      have : d0 = '_' := by simpa using hcon
      exact hDu (hdig ▸ (this ▸ List.mem_cons_self _ _))
  have h1 : hasDunder (digits ++ '.' :: tl) = false :=
    hasDunder_append_false digits ('.' :: tl) (noDunder_of_not_mem _ hDu) htldund
      (by
        rintro ⟨hg, -⟩
        exact hDu (mem_of_getLast?_eq _ _ hg))
  have huuh : (uuid ++ '_' :: (digits ++ '.' :: tl)).head? ≠ some '_' := by
    rw [head?_append_left _ _ huune]
    cases huid : uuid with
    | nil => exact absurd huid huune
    | cons u0 us =>
      rw [List.head?_cons]
      intro hcon
      have : u0 = '_' := by simpa using hcon
      exact huu (huid ▸ (this ▸ List.mem_cons_self _ _))
  have h3 : hasDunder (uuid ++ '_' :: (digits ++ '.' :: tl)) = false :=
    hasDunder_append_false uuid _ (noDunder_of_not_mem _ huu)
      (hasDunder_cons_false '_' _ h1 hdigh)
      (by
        rintro ⟨hg, -⟩
        exact huu (mem_of_getLast?_eq _ _ hg))
  have hR_d : hasDunder (S ++ ('_' :: (uuid ++ ('_' :: (digits ++ ('.' :: tl)))))) = false :=
    hasDunder_append_false S _ hSd (hasDunder_cons_false '_' _ h3 huuh)
      (by
        rintro ⟨hg, -⟩
        exact hSl hg)
  have hAB_d : hasDunder (A ++ ('_' :: B)) = false :=
    hasDunder_append_false A ('_' :: B) hAd (hasDunder_cons_false '_' B hBd hBh)
      (by
        rintro ⟨hg, -⟩
        exact hAl hg)
  have hAB_l : (A ++ ('_' :: B)).getLast? ≠ some '_' := by
    rw [getLast?_append_cons, getLast?_cons_of_ne_nil '_' B hBne]
    exact hBl
  have hsplit : splitDunder
      (CatV ++ ('_' :: ('_' :: ((A ++ ('_' :: B)) ++
        ('_' :: ('_' :: (S ++ ('_' :: (uuid ++ ('_' :: (digits ++ ('.' :: tl)))))))))))) =
      [CatV, A ++ ('_' :: B), S ++ ('_' :: (uuid ++ ('_' :: (digits ++ ('.' :: tl)))))] := by
    rw [splitDunder_append CatV _ hCd hCl]
    rw [splitDunder_append (A ++ ('_' :: B)) _ hAB_d hAB_l]
    rw [splitDunder_noDunder _ hR_d]
  have hXne : S ++ ('_' :: (uuid ++ ('_' :: digits))) ≠ [] := by
    intro hcon
    exact hSne (List.append_eq_nil.mp hcon).1
  have hstem : pathStem (S ++ ('_' :: (uuid ++ ('_' :: (digits ++ ('.' :: tl)))))) =
      S ++ ('_' :: (uuid ++ ('_' :: digits))) := by
    have hre : S ++ ('_' :: (uuid ++ ('_' :: (digits ++ ('.' :: tl))))) =
        (S ++ ('_' :: (uuid ++ ('_' :: digits)))) ++ ('.' :: tl) := by
      simp [List.append_assoc]
    rw [hre, pathStem_append_ext _ tl hXne htlne htldot]
  have hrsplit : rsplit2Underscore (S ++ ('_' :: (uuid ++ ('_' :: digits)))) =
      [S, uuid, digits] := by
    have hX2 : S ++ ('_' :: (uuid ++ ('_' :: digits))) =
        (S ++ ('_' :: uuid)) ++ ('_' :: digits) := by
      simp [List.append_assoc]
    rw [rsplit2Underscore, hX2, splitLastChar_append '_' _ digits hDu]
    simp [splitLastChar_append '_' S uuid huu]
  simp only [parse_stored_filename]
  rw [hsplit]
  rw [if_neg (by simp)]
  simp only [List.headD_cons, List.drop_succ_cons, List.drop_zero]
  rw [joinDunder_singleton, hstem, hrsplit]
  simp [hulen]

/-! ## Claim C3 -/

/-- C3 counterexample: decode of encode does NOT recover the metadata for
every valid input.  A 51-character first name sanitises (under the default
50-character bound) to a string ending in `_`; the assembled filename then
contains a spurious `__` right at that trailing underscore, the `split("__")`
re-segmentation shifts, and both the recovered name pair and the recovered
original stem are wrong. -/
theorem parse_encode_counterexample :
    parse_stored_filename (encode_stored_filename DocumentCategory.DIPLOM
        "aaaaaaaaaaaaaaaaaaaaaaaaaaaaaaaaaaaaaaaaaaaaaaaaa_b".data "x".data "doc".data
        "00000000-0000-0000-0000-000000000000".data 1 ".pdf".data) ≠
      some ⟨"00000000-0000-0000-0000-000000000000".data,
        categoryValue DocumentCategory.DIPLOM,
        sanitizeDefault "aaaaaaaaaaaaaaaaaaaaaaaaaaaaaaaaaaaaaaaaaaaaaaaaa_b".data ++
          ('_' :: sanitizeDefault "x".data),
        sanitizeDefault "doc".data⟩ := by
  decide

/-- C3 (amended): decoding the filename produced by encoding recovers the
original category value, the sanitized name pair, the id and the sanitized
original stem, for all inputs whose three sanitized components do not end in
an underscore (always true except when truncation at the 50-character bound
cuts directly after an underscore), with the generated id being the
36-character UUID string (which contains no `_` or `.`) and the extension
drawn from the validated allow-list. -/
theorem parse_encode_roundtrip (category : DocumentCategory)
    (name lastname origStem uuid ext : List Char) (idx : Nat)
    (hcat : category ≠ DocumentCategory.UNCLASSIFIED)
    (hA : (sanitizeDefault name).getLast? ≠ some '_')
    (hB : (sanitizeDefault lastname).getLast? ≠ some '_')
    (hS : (sanitizeDefault origStem).getLast? ≠ some '_')
    (hulen : uuid.length = 36)
    (huu : '_' ∉ uuid) (hud : '.' ∉ uuid)
    (hext : ext ∈ ALLOWED_EXTENSIONS) :
    parse_stored_filename
        (encode_stored_filename category name lastname origStem uuid idx ext) =
      some ⟨uuid, categoryValue category,
        sanitizeDefault name ++ ('_' :: sanitizeDefault lastname),
        sanitizeDefault origStem⟩ := by
  obtain ⟨tl, hexteq, htlne, htldot, htlund, htldund⟩ := ext_facts ext hext
  subst hexteq
  have hshape : encode_stored_filename category name lastname origStem uuid idx ('.' :: tl) =
      categoryValue category ++ ('_' :: ('_' :: ((sanitizeDefault name ++
        ('_' :: sanitizeDefault lastname)) ++
        ('_' :: ('_' :: (sanitizeDefault origStem ++
          ('_' :: (uuid ++ ('_' :: (natDigits idx ++ ('.' :: tl))))))))))) := by
    simp [encode_stored_filename, candidateName, storageBaseOfStem, List.append_assoc]
  rw [hshape]
  exact parse_candidate (categoryValue category) (sanitizeDefault name)
    (sanitizeDefault lastname) (sanitizeDefault origStem) uuid (natDigits idx) tl
    (categoryValue_clean category).1 (categoryValue_clean category).2
    (sanitize_name_noDunder name 50) hA
    (sanitize_name_ne_nil lastname 50) (sanitize_name_noDunder lastname 50)
    (sanitize_name_head_ne lastname 50) hB
    (sanitize_name_ne_nil origStem 50) (sanitize_name_noDunder origStem 50) hS
    hulen huu hud
    (natDigits_ne_nil idx) (natDigits_not_mem_underscore idx) (natDigits_not_mem_dot idx)
    htlne htldot htldund

/-- Witness for C3 (amended) at concrete inputs, including a Cyrillic name
normalised by sanitize. -/
theorem parse_encode_roundtrip_witness :
    parse_stored_filename
        (encode_stored_filename DocumentCategory.UDOSTOVERENIE "Иван".data "Петров".data
          "doc scan".data "123e4567-e89b-12d3-a456-426614174000".data 1 ".pdf".data) =
      some ⟨"123e4567-e89b-12d3-a456-426614174000".data,
        categoryValue DocumentCategory.UDOSTOVERENIE,
        sanitizeDefault "Иван".data ++ ('_' :: sanitizeDefault "Петров".data),
        sanitizeDefault "doc scan".data⟩ :=
  parse_encode_roundtrip DocumentCategory.UDOSTOVERENIE ("Иван".data) ("Петров".data)
    ("doc scan".data) ("123e4567-e89b-12d3-a456-426614174000".data) (".pdf".data) 1
    (by decide) (by decide) (by decide) (by decide) (by decide) (by decide) (by decide)
    (by decide)

end Server
